import Mathlib

/-!
Shallow embedding of the contango-hunter trading core: the hedge position
book (`contango_auto_trader.py`), the REST contango evaluator and the
USD/KRW rate cache (`contango_monitor.py`), and the WebSocket contango
evaluator (`ws_contango_engine.py`).  Python floats are modelled as exact
rationals, nullable values as `Option`, and dicts as association lists in
insertion order.
-/

namespace Contango

/-- Dust epsilon used throughout the trader (`1e-9` USD). -/
def eps : ℚ := 1 / 1000000000

/-- The `TRANCHE_USD` constant from `contango_auto_trader.py`. -/
def TRANCHE_USD : ℚ := 50

/-- The `MAX_PER_LEG_USD` constant from `contango_auto_trader.py`. -/
def MAX_PER_LEG_USD : ℚ := 2000

/-- One tranche dict as appended by `HedgePosition.record_entry`. -/
structure Tranche where
  usd : ℚ
  futures_price : ℚ
  spot_price : ℚ
  timestamp : ℚ
deriving DecidableEq

/-- The `HedgePosition` dataclass: identity fields plus the book state. -/
structure HedgePosition where
  base : String
  spot_exchange : String
  futures_exchange : String
  futures_symbol : String
  spot_symbol : String
  notional_usd : ℚ
  tranches : List Tranche
deriving DecidableEq

/-- The two price fields that `record_entry` and `record_exit` read from an
opportunity row (`opportunity["futures_price"]`, `opportunity["spot_price"]`). -/
structure PriceData where
  futures_price : ℚ
  spot_price : ℚ
deriving DecidableEq

/-- The `HedgePosition.remaining_capacity` property. -/
def remaining_capacity (p : HedgePosition) : ℚ :=
  max 0 (MAX_PER_LEG_USD - p.notional_usd)

/-- Result of `record_entry`: the returned `usd_added` and the updated
position (the Python method mutates `self` and returns the float). -/
structure EntryResult where
  usd_added : ℚ
  pos : HedgePosition
deriving DecidableEq

/-- Method `HedgePosition.record_entry`. -/
def record_entry (p : HedgePosition) (usd : ℚ) (opportunity : PriceData) (now : ℚ) :
    EntryResult :=
  let usd_added := min usd (remaining_capacity p)
  if usd_added ≤ 0 then ⟨0, p⟩
  else
    ⟨usd_added,
      { p with
        tranches := p.tranches ++
          [{ usd := usd_added, futures_price := opportunity.futures_price,
             spot_price := opportunity.spot_price, timestamp := now }],
        notional_usd := p.notional_usd + usd_added }⟩

/-- One element of the `details` list built by `record_exit`. -/
structure ExitDetail where
  portion_usd : ℚ
  qty : ℚ
  entry_futures_price : ℚ
  entry_spot_price : ℚ
  entry_timestamp : ℚ
  exit_futures_price : ℚ
  exit_spot_price : ℚ
  exit_timestamp : ℚ
  pnl_usd : ℚ
deriving DecidableEq

/-- State returned by the `record_exit` while loop: the remaining request,
the accumulated PnL, the accumulated details and the surviving tranches. -/
structure LoopOut where
  usd_remaining : ℚ
  pnl_total : ℚ
  details : List ExitDetail
  tranches : List Tranche
deriving DecidableEq

/-- The while loop of `HedgePosition.record_exit`, written with explicit
fuel so it stays structurally recursive.  Every iteration pops a tranche
except possibly the final partial one, so `record_exit` passes
`fuel = tranches.length + 1` and the fuel never runs out. -/
def exit_loop (exit_fut exit_spot now : ℚ) :
    ℕ → List Tranche → ℚ → LoopOut
  | 0, ts, usd_remaining => ⟨usd_remaining, 0, [], ts⟩
  | _ + 1, [], usd_remaining => ⟨usd_remaining, 0, [], []⟩
  | fuel + 1, t :: ts, usd_remaining =>
    if usd_remaining ≤ eps then ⟨usd_remaining, 0, [], t :: ts⟩
    else
      let portion := min usd_remaining t.usd
      let qty := portion / t.futures_price
      let pnl := qty * ((t.futures_price - exit_fut) + (exit_spot - t.spot_price))
      let detail : ExitDetail :=
        { portion_usd := portion, qty := qty,
          entry_futures_price := t.futures_price, entry_spot_price := t.spot_price,
          entry_timestamp := t.timestamp, exit_futures_price := exit_fut,
          exit_spot_price := exit_spot, exit_timestamp := now, pnl_usd := pnl }
      let next :=
        if t.usd - portion ≤ eps then
          exit_loop exit_fut exit_spot now fuel ts (usd_remaining - portion)
        else
          exit_loop exit_fut exit_spot now fuel
            ({ t with usd := t.usd - portion } :: ts) (usd_remaining - portion)
      ⟨next.usd_remaining, pnl + next.pnl_total, detail :: next.details, next.tranches⟩

/-- Result of `record_exit`: the returned triple and the updated position. -/
structure ExitResult where
  closed_usd : ℚ
  pnl_usd : ℚ
  details : List ExitDetail
  pos : HedgePosition
deriving DecidableEq

/-- Method `HedgePosition.record_exit`. -/
def record_exit (p : HedgePosition) (usd : ℚ) (exit_data : PriceData) (now : ℚ) :
    ExitResult :=
  let usd_target := min usd p.notional_usd
  if usd_target ≤ 0 then ⟨0, 0, [], p⟩
  else
    let r := exit_loop exit_data.futures_price exit_data.spot_price now
      (p.tranches.length + 1) p.tranches usd_target
    let actual_closed := usd_target - r.usd_remaining
    ⟨actual_closed, r.pnl_total, r.details,
      { p with
        tranches := r.tranches,
        notional_usd := max 0 (p.notional_usd - actual_closed) }⟩

/-- Total `usd` carried by a tranche list. -/
def sumUsd (ts : List Tranche) : ℚ := (ts.map Tranche.usd).sum

/-- A recorded call against one hedge position. -/
inductive BookOp
  | entryOp (usd : ℚ) (row : PriceData) (now : ℚ)
  | exitOp (usd : ℚ) (row : PriceData) (now : ℚ)
deriving DecidableEq

/-- Apply one book operation, keeping only the mutated position. -/
def applyOp (p : HedgePosition) : BookOp → HedgePosition
  | .entryOp usd row now => (record_entry p usd row now).pos
  | .exitOp usd row now => (record_exit p usd row now).pos

/-- Apply a sequence of book operations in order. -/
def applyOps (p : HedgePosition) (ops : List BookOp) : HedgePosition :=
  ops.foldl applyOp p

/-- Number of `record_exit` calls in a sequence. -/
def exitCount (ops : List BookOp) : ℕ :=
  (ops.filter fun op => match op with | .exitOp _ _ _ => true | _ => false).length

/-- A freshly created position (`notional_usd=0.0`, empty tranche list). -/
def empty_position (base spot_ex fut_ex fut_sym spot_sym : String) : HedgePosition :=
  ⟨base, spot_ex, fut_ex, fut_sym, spot_sym, 0, []⟩

/-- Dict upsert for association lists (Python `d[k] = v` keeps the key's
original position and overwrites its value). -/
def setKey {α : Type} (m : List (String × α)) (k : String) (v : α) : List (String × α) :=
  match m with
  | [] => [(k, v)]
  | (k0, v0) :: rest => if k0 = k then (k, v) :: rest else (k0, v0) :: setKey rest k v

/-- Stable insert for a descending sort by a rational key. -/
def insertDesc {α : Type} (key : α → ℚ) (r : α) : List α → List α
  | [] => [r]
  | x :: xs => if key x < key r then r :: x :: xs else x :: insertDesc key r xs

/-- Insertion sort descending by `key`
(Python `rows.sort(key=..., reverse=True)`). -/
def sortDesc {α : Type} (key : α → ℚ) (rows : List α) : List α :=
  rows.foldr (insertDesc key) []

/-! ### contango_monitor.py -/

namespace Monitor

/-- A ticker dict as shaped by `price_fetcher.format_ticker`: only the
fields the monitor's spot path reads. -/
structure Ticker where
  ask : Option ℚ
  last : Option ℚ
deriving DecidableEq

/-- Python `ticker.get("ask") or ticker.get("last")`: the `or` falls
through both on a missing and on a zero (falsy) ask. -/
def pickPrice (t : Ticker) : Option ℚ :=
  match t.ask with
  | some a => if a = 0 then t.last else some a
  | none => t.last

/-- One record of `USDKRWCache._rates`. -/
structure CacheRecord where
  rate : ℚ
  timestamp : ℚ
  raw : ℚ
deriving DecidableEq

/-- The `USDKRWCache` object: TTL plus the per-venue record dict. -/
structure USDKRWCache where
  ttl : ℚ
  rates : List (String × CacheRecord)
deriving DecidableEq

/-- The module-level `usdkrw_cache = USDKRWCache()` (TTL 30 s, no records). -/
def usdkrw_cache_init : USDKRWCache := ⟨30, []⟩

/-- Method `USDKRWCache.get_rate`: returns the rate and the updated cache, or the
message of the raised `ContangoError`. -/
def get_rate (c : USDKRWCache) (exchange_id : String)
    (prices : List (String × Ticker)) (now : ℚ) : Except String (ℚ × USDKRWCache) :=
  match prices.lookup "USDT/KRW" with
  | none => .error "USDT/KRW ticker missing."
  | some info =>
    match pickPrice info with
    | none => .error "USDT/KRW ticker has no price data."
    | some raw_value =>
      let rate := raw_value
      match c.rates.lookup exchange_id with
      | some record =>
        if rate = record.raw ∧ now - record.timestamp < c.ttl then
          .ok (record.rate, c)
        else
          .ok (rate, { c with rates := setKey c.rates exchange_id ⟨rate, now, rate⟩ })
      | none => .ok (rate, { c with rates := setKey c.rates exchange_id ⟨rate, now, rate⟩ })

/-- Function `normalize_base`: the part before the first `/`, hyphens stripped,
uppercased. -/
def normalize_base (symbol : String) : String :=
  ⟨((symbol.data.takeWhile (fun c => c ≠ '/')).filter (fun c => c ≠ '-')).map Char.toUpper⟩

/-- Python `symbol.endswith("/KRW")`. -/
def ends_with_krw (symbol : String) : Bool :=
  symbol.data.reverse.take 4 == "/KRW".data.reverse

/-- The projection loop of `build_spot_usd_maps`: each `*/KRW` symbol with
a usable price is stored as `price / usdkrw` under its canonical base. -/
def project_loop (usdkrw : ℚ) : List (String × Ticker) → List (String × ℚ) → List (String × ℚ)
  | [], spot_usd => spot_usd
  | (symbol, ticker) :: rest, spot_usd =>
    if ends_with_krw symbol then
      match pickPrice ticker with
      | some price =>
        project_loop usdkrw rest (setKey spot_usd (normalize_base symbol) (price / usdkrw))
      | none => project_loop usdkrw rest spot_usd
    else
      project_loop usdkrw rest spot_usd

/-- The spot-USD projection of one venue's prices dict. -/
def project_spot_usd (prices : List (String × Ticker)) (usdkrw : ℚ) : List (String × ℚ) :=
  project_loop usdkrw prices []

/-- Result of `fetch_prices_for_exchange` for one venue as consumed by
`build_spot_usd_maps`: an error payload or the prices dict. -/
inductive FetchPayload
  | fetchError (msg : String)
  | fetched (prices : List (String × Ticker))
deriving DecidableEq

/-- One spot venue config together with the payload the thread pool
returned for it (`none` when absent from the payloads dict). -/
structure SpotVenue where
  exchange_id : String
  label : String
  short_label : Option String
  payload : Option FetchPayload
deriving DecidableEq

/-- Python `cfg.short_label or cfg.label` (an empty string is falsy). -/
def venue_label (v : SpotVenue) : String :=
  match v.short_label with
  | some s => if s = "" then v.label else s
  | none => v.label

/-- Value stored per venue in the `spot_maps` dict. -/
structure SpotMapEntry where
  label : String
  prices : List (String × ℚ)
deriving DecidableEq

/-- The venue loop of `build_spot_usd_maps`, threading the module-level
USD/KRW cache through the venues in configured order. -/
def build_spot_loop (now : ℚ) :
    List SpotVenue → USDKRWCache → List (String × SpotMapEntry) × USDKRWCache
  | [], c => ([], c)
  | v :: rest, c =>
    match v.payload with
    | none => build_spot_loop now rest c
    | some (.fetchError _) => build_spot_loop now rest c
    | some (.fetched prices) =>
      match get_rate c v.exchange_id prices now with
      | .error _ => build_spot_loop now rest c
      | .ok (usdkrw, c1) =>
        let spot_usd := project_spot_usd prices usdkrw
        if spot_usd = [] then build_spot_loop now rest c1
        else
          let r := build_spot_loop now rest c1
          ((v.exchange_id, ⟨venue_label v, spot_usd⟩) :: r.1, r.2)

/-- Function `build_spot_usd_maps`: raises `ContangoError` when no venue
contributed any price. -/
def build_spot_usd_maps (venues : List SpotVenue) (c : USDKRWCache) (now : ℚ) :
    Except String (List (String × SpotMapEntry) × USDKRWCache) :=
  let r := build_spot_loop now venues c
  if r.1 = [] then .error "No KRW spot prices available." else .ok r

/-- The `SPOT_FEES` dict with `.get(spot_id, 0.0)` semantics. -/
def SPOT_FEES (exchange_id : String) : ℚ :=
  if exchange_id = "upbit" then 5 / 10000
  else if exchange_id = "bithumb" then 4 / 10000
  else 0

/-- The `FUTURES_FEES` dict with `.get(futures_id, 0.0)` semantics. -/
def FUTURES_FEES (exchange_id : String) : ℚ :=
  if exchange_id = "gateio" then 5 / 10000
  else if exchange_id = "hyperliquid" then 35 / 100000
  else if exchange_id = "okx" then 5 / 10000
  else if exchange_id = "bybit" then 55 / 10000
  else 0

/-- One entry of a futures venue map as built by `build_futures_maps`. -/
structure FutPayload where
  price : Option ℚ
  funding_rate : Option ℚ
  symbol : Option String
deriving DecidableEq

/-- An opportunity row dict as appended by `identify_contango`. -/
structure Row where
  base : String
  spot_exchange : String
  spot_label : String
  exchange : String
  spot_price : ℚ
  futures_price : ℚ
  spread : ℚ
  pct : ℚ
  futures_symbol : Option String
  funding_rate : Option ℚ
  net_pct : ℚ
  net_pct_minus_0_2 : ℚ
  net_pct_minus_0_4 : ℚ
deriving DecidableEq

/-- The body of the innermost loop of `identify_contango`; `none` models
every `continue`. -/
def row_for (spot_id spot_label : String) (spot_prices : List (String × ℚ))
    (futures_id : String) (base : String) (payload : FutPayload)
    (min_spread_pct : ℚ) (require_nonnegative_funding : Bool) : Option Row :=
  match spot_prices.lookup base with
  | none => none
  | some spot_price =>
    if spot_price = 0 then none
    else
      match payload.price with
      | none => none
      | some futures_price =>
        let spread := futures_price - spot_price
        if spread ≤ 0 then none
        else
          let pct := spread / spot_price * 100
          if pct < min_spread_pct then none
          else
            match payload.funding_rate with
            | none => none
            | some funding_rate =>
              if require_nonnegative_funding ∧ funding_rate < 0 then none
              else
                let spot_fee := SPOT_FEES spot_id
                let fut_fee := FUTURES_FEES futures_id
                let total_fee_pct := (spot_fee * 2 + fut_fee * 2) * 100
                some
                  { base := base, spot_exchange := spot_id, spot_label := spot_label,
                    exchange := futures_id, spot_price := spot_price,
                    futures_price := futures_price, spread := spread, pct := pct,
                    futures_symbol := payload.symbol, funding_rate := some funding_rate,
                    net_pct := pct - total_fee_pct,
                    net_pct_minus_0_2 := pct - total_fee_pct - 2 / 10,
                    net_pct_minus_0_4 := pct - total_fee_pct - 4 / 10 }

/-- Function `identify_contango`: the triple loop over spot venues, futures venues
and bases, then the sort by raw `pct` descending. -/
def identify_contango (spot_maps : List (String × SpotMapEntry))
    (futures_maps : List (String × List (String × FutPayload)))
    (min_spread_pct : ℚ) (require_nonnegative_funding : Bool) : List Row :=
  let rows := spot_maps.flatMap fun sp =>
    futures_maps.flatMap fun fm =>
      fm.2.filterMap fun bp =>
        row_for sp.1 sp.2.label sp.2.prices fm.1 bp.1 bp.2 min_spread_pct
          require_nonnegative_funding
  sortDesc Row.pct rows

end Monitor

/-! ### ws_contango_engine.py -/

namespace WS

/-- The ws engine's own `SPOT_FEES` dict with `.get(spot_id, 0.0)`. -/
def SPOT_FEES (spot_id : String) : ℚ :=
  if spot_id = "upbit" then 5 / 10000
  else if spot_id = "bithumb" then 4 / 10000
  else 0

/-- Constant `OKX_FEE` from okx_ws_monitor.py. -/
def OKX_FEE : ℚ := 5 / 10000

/-- Constant `GATE_FEE` from gate_ws_monitor.py. -/
def GATE_FEE : ℚ := 5 / 10000

/-- Constant `HL_FEE` from hyperliquid_ws_monitor.py. -/
def HL_FEE : ℚ := 35 / 100000

/-- One snapshot entry of a futures stream. -/
structure FutData where
  bid : Option ℚ
  funding_rate : Option ℚ
deriving DecidableEq

/-- The `FuturesStream` dataclass. -/
structure FuturesStream where
  name : String
  fee : ℚ
  snapshot : List (String × FutData)
  resolver : String → Option String

/-- Value stored per venue in the `spot_sources` dict. -/
structure SpotSource where
  label : String
  prices : List (String × ℚ)
deriving DecidableEq

/-- An opportunity row dict as appended by `compute_contango`. -/
structure Row where
  base : String
  spot_label : String
  futures : String
  spot_price : ℚ
  futures_price : ℚ
  spread : ℚ
  pct : ℚ
  net_pct : ℚ
  funding_rate : Option ℚ
deriving DecidableEq

/-- Python `base.upper()`. -/
def upper (s : String) : String := ⟨s.data.map Char.toUpper⟩

/-- The body of the innermost loop of `compute_contango`; `none` models
every `continue`.  Note: no funding filter exists on this path. -/
def row_for (label : String) (spot_prices : List (String × ℚ)) (spot_fee : ℚ)
    (stream_name : String) (stream_fee : ℚ) (resolver : String → Option String)
    (key : String) (data : FutData) (min_spread_pct : ℚ) : Option Row :=
  match resolver key with
  | none => none
  | some base =>
    if base = "" then none
    else
      match spot_prices.lookup (upper base) with
      | none => none
      | some spot_price =>
        if spot_price = 0 then none
        else
          match data.bid with
          | none => none
          | some bid =>
            let spread := bid - spot_price
            if spread ≤ 0 then none
            else
              let pct := spread / spot_price * 100
              if pct < min_spread_pct then none
              else
                let funding := data.funding_rate
                let total_fee_pct := (spot_fee * 2 + stream_fee * 2) * 100
                some ⟨upper base, label, stream_name, spot_price, bid, spread, pct,
                  pct - total_fee_pct, funding⟩

/-- Function `compute_contango` of the unified WebSocket engine. -/
def compute_contango (spot_sources : List (String × SpotSource))
    (streams : List FuturesStream) (min_spread_pct : ℚ) : List Row :=
  let rows := spot_sources.flatMap fun sp =>
    streams.flatMap fun st =>
      st.snapshot.filterMap fun kd =>
        row_for sp.2.label sp.2.prices (SPOT_FEES sp.1) st.name st.fee st.resolver
          kd.1 kd.2 min_spread_pct
  sortDesc Row.pct rows

end WS


/-! ### Derived notions used by the verification -/

/-- Book invariant after `k` exits: the tranche ledger never exceeds the
notional, the mismatch is bounded by `k` dust units, the notional respects
the per-leg cap, and live tranches carry positive size. -/
def BookInv (k : ℕ) (p : HedgePosition) : Prop :=
  sumUsd p.tranches ≤ p.notional_usd ∧
  p.notional_usd - sumUsd p.tranches ≤ (k : ℚ) * eps ∧
  p.notional_usd ≤ MAX_PER_LEG_USD ∧
  ∀ t ∈ p.tranches, 0 < t.usd

/-- Open `k` tranches of `TRANCHE_USD` from an empty book, entry `j` priced
by `opps j`. -/
def open_tranches (opps : ℕ → PriceData) : ℕ → HedgePosition
  | 0 => empty_position "BTC" "upbit" "gateio" "BTC/USDT:USDT" "BTC/KRW"
  | k + 1 => (record_entry (open_tranches opps k) TRANCHE_USD (opps k) 0).pos

/-- The position of the capacity-cap scenario: `k` successive
`record_entry(TRANCHE_USD, …)` calls starting from an empty book. -/
def cap_position : ℕ → HedgePosition :=
  open_tranches fun _ => ⟨100, 99⟩

/-- Issue `k` `record_exit(TRANCHE_USD, …)` requests, request `j` priced by
`eds j`. -/
def close_tranches (eds : ℕ → PriceData) : ℕ → HedgePosition → HedgePosition
  | 0, p => p
  | k + 1, p => close_tranches (fun i => eds (i + 1)) k (record_exit p TRANCHE_USD (eds 0) 0).pos

/-- The tranche book used in the FIFO PnL scenario: two $50 tranches at
(fut 100 / spot 99) and (fut 110 / spot 108). -/
def c1pos : HedgePosition :=
  ⟨"BTC", "upbit", "gateio", "BTC/USDT:USTD", "BTC/KRW", 100,
    [⟨50, 100, 99, 0⟩, ⟨50, 110, 108, 0⟩]⟩

/-- Two entries of $50 followed by two exit requests of `50 − 9e-10` USD:
each exit sheds `9e-10` of ledger dust. -/
def c2ops : List BookOp :=
  [.entryOp 50 ⟨100, 99⟩ 0, .entryOp 50 ⟨100, 99⟩ 0,
   .exitOp (50 - 9 / 10000000000) ⟨100, 99⟩ 0,
   .exitOp (50 - 9 / 10000000000) ⟨100, 99⟩ 0]

/-- A WS futures stream whose snapshot carries a bid but no funding rate. -/
def c4stream : WS.FuturesStream :=
  ⟨"Hyperliquid", WS.HL_FEE, [("BTC", ⟨some 110, none⟩)], fun coin => some coin⟩

/-- Spot side of the spread-filter scenario: Upbit BTC at $100,000. -/
def c3spot : List (String × Monitor.SpotMapEntry) :=
  [("upbit", ⟨"Up", [("BTC", 100000)]⟩)]

/-- Futures side of the spread-filter scenario: Hyperliquid BTC bid
$100,500 with zero funding. -/
def c3fut : List (String × List (String × Monitor.FutPayload)) :=
  [("hyperliquid", [("BTC", ⟨some 100500, some 0, some "BTC/USDT:USDT"⟩)])]

/-- The opportunity row the evaluator emits for the scenario above. -/
def c3row : Monitor.Row :=
  ⟨"BTC", "upbit", "Up", "hyperliquid", 100000, 100500, 500, 1 / 2,
    some "BTC/USDT:USDT", some 0, 33 / 100, 13 / 100, -7 / 100⟩

/-- The row the WS evaluator emits for `c4stream` against Upbit BTC at
$100. -/
def c3wsrow : WS.Row :=
  ⟨"BTC", "Up", "Hyperliquid", 100, 110, 10, 10, 983 / 100, none⟩

namespace Monitor

/-- Every cache record memoises exactly the raw value it was built from;
`get_rate` only ever stores records of this shape. -/
def CacheWF (c : USDKRWCache) : Prop :=
  ∀ e r, c.rates.lookup e = some r → r.rate = r.raw

/-- The raw `USDT/KRW` reading of a prices dict (ask falling back to last). -/
def rawReading (prices : List (String × Ticker)) : Option ℚ :=
  (prices.lookup "USDT/KRW").bind pickPrice

/-- Modelled from the claim's wording for the spot projector: pick the ask
price if present, else the last price (no fallback on a zero ask). -/
def claim_pick (t : Ticker) : Option ℚ :=
  match t.ask with
  | some a => some a
  | none => t.last

end Monitor

/-! ### Helper lemmas -/

theorem eps_pos : 0 < eps := by norm_num [eps]

/-- If the request is already dust the loop body never runs. -/
theorem exit_loop_stop (ef es n : ℚ) (fuel : ℕ) (ts : List Tranche) (u : ℚ)
    (h : u ≤ eps) : exit_loop ef es n fuel ts u = ⟨u, 0, [], ts⟩ := by
  cases fuel with
  | zero => simp [exit_loop]
  | succ m => cases ts with
    | nil => simp [exit_loop]
    | cons t ts => simp [exit_loop, h]

/-- The loop only produces details when the request exceeds the dust bound. -/
theorem exit_loop_details_ne_nil (ef es n : ℚ) (fuel : ℕ) (ts : List Tranche) (u : ℚ)
    (h : (exit_loop ef es n fuel ts u).details ≠ []) : eps < u := by
  by_contra hle
  rw [exit_loop_stop ef es n fuel ts u (le_of_not_lt hle)] at h
  simp at h

/-- Unfolding equation for the loop on a non-empty tranche list with a
non-dust request. -/
theorem exit_loop_cons (ef es n : ℚ) (fuel : ℕ) (t : Tranche) (ts : List Tranche) (u : ℚ)
    (hgt : ¬ u ≤ eps) :
    exit_loop ef es n (fuel + 1) (t :: ts) u =
      (let portion := min u t.usd
       let qty := portion / t.futures_price
       let pnl := qty * ((t.futures_price - ef) + (es - t.spot_price))
       let next :=
        if t.usd - portion ≤ eps then
          exit_loop ef es n fuel ts (u - portion)
        else
          exit_loop ef es n fuel ({ t with usd := t.usd - portion } :: ts) (u - portion)
       ⟨next.usd_remaining, pnl + next.pnl_total,
        ⟨portion, qty, t.futures_price, t.spot_price, t.timestamp, ef, es, n, pnl⟩ ::
          next.details,
        next.tranches⟩) := by
  rw [exit_loop, if_neg hgt]

/-- The details record exactly the consumed quantity:
sum of `portion_usd` = initial request − `usd_remaining`. -/
theorem exit_loop_portions (ef es n : ℚ) : ∀ (fuel : ℕ) (ts : List Tranche) (u : ℚ),
    ((exit_loop ef es n fuel ts u).details.map ExitDetail.portion_usd).sum
      = u - (exit_loop ef es n fuel ts u).usd_remaining := by
  intro fuel
  induction fuel with
  | zero => intro ts u; simp [exit_loop]
  | succ m ih =>
    intro ts u
    cases ts with
    | nil => simp [exit_loop]
    | cons t ts =>
      by_cases hle : u ≤ eps
      · simp [exit_loop_stop ef es n (m + 1) (t :: ts) u hle]
      · rw [exit_loop_cons ef es n m t ts u hle]
        dsimp only
        by_cases hpop : t.usd - min u t.usd ≤ eps
        · rw [if_pos hpop]
          simp only [List.map_cons, List.sum_cons, ih]
          ring
        · rw [if_neg hpop]
          simp only [List.map_cons, List.sum_cons, ih]
          ring

/-- The returned total PnL is the sum of the per-portion PnLs. -/
theorem exit_loop_pnl (ef es n : ℚ) : ∀ (fuel : ℕ) (ts : List Tranche) (u : ℚ),
    (exit_loop ef es n fuel ts u).pnl_total
      = ((exit_loop ef es n fuel ts u).details.map ExitDetail.pnl_usd).sum := by
  intro fuel
  induction fuel with
  | zero => intro ts u; simp [exit_loop]
  | succ m ih =>
    intro ts u
    cases ts with
    | nil => simp [exit_loop]
    | cons t ts =>
      by_cases hle : u ≤ eps
      · simp [exit_loop_stop ef es n (m + 1) (t :: ts) u hle]
      · rw [exit_loop_cons ef es n m t ts u hle]
        dsimp only
        by_cases hpop : t.usd - min u t.usd ≤ eps
        · rw [if_pos hpop]; simp only [List.map_cons, List.sum_cons, ih]
        · rw [if_neg hpop]; simp only [List.map_cons, List.sum_cons, ih]

/-- Every detail satisfies the hedged-PnL bookkeeping equations. -/
theorem exit_loop_detail_fields (ef es n : ℚ) : ∀ (fuel : ℕ) (ts : List Tranche) (u : ℚ),
    ∀ d ∈ (exit_loop ef es n fuel ts u).details,
      d.qty = d.portion_usd / d.entry_futures_price ∧
      d.pnl_usd = d.qty * ((d.entry_futures_price - ef) + (es - d.entry_spot_price)) ∧
      d.exit_futures_price = ef ∧ d.exit_spot_price = es ∧ d.exit_timestamp = n := by
  intro fuel
  induction fuel with
  | zero => intro ts u; simp [exit_loop]
  | succ m ih =>
    intro ts u
    cases ts with
    | nil => simp [exit_loop]
    | cons t ts =>
      by_cases hle : u ≤ eps
      · simp [exit_loop_stop ef es n (m + 1) (t :: ts) u hle]
      · rw [exit_loop_cons ef es n m t ts u hle]
        dsimp only
        by_cases hpop : t.usd - min u t.usd ≤ eps
        · rw [if_pos hpop]
          intro d hd
          rcases List.mem_cons.mp hd with h | h
          · subst h; exact ⟨rfl, rfl, rfl, rfl, rfl⟩
          · exact ih ts (u - min u t.usd) d h
        · rw [if_neg hpop]
          intro d hd
          rcases List.mem_cons.mp hd with h | h
          · subst h; exact ⟨rfl, rfl, rfl, rfl, rfl⟩
          · exact ih ({ t with usd := t.usd - min u t.usd } :: ts) (u - min u t.usd) d h

theorem sumUsd_nil : sumUsd [] = 0 := rfl

theorem sumUsd_cons (t : Tranche) (ts : List Tranche) :
    sumUsd (t :: ts) = t.usd + sumUsd ts := by simp [sumUsd]

/-- FIFO: detail `i` consumes tranche `i` of the original list; every
consumed tranche but the last is consumed in full, and the last consumed
portion never exceeds its tranche. -/
theorem exit_loop_fifo (ef es n : ℚ) : ∀ (fuel : ℕ) (ts : List Tranche) (u : ℚ),
    (exit_loop ef es n fuel ts u).details.length ≤ ts.length ∧
    ∀ i d t, (exit_loop ef es n fuel ts u).details[i]? = some d → ts[i]? = some t →
      d.entry_futures_price = t.futures_price ∧ d.entry_spot_price = t.spot_price ∧
      d.entry_timestamp = t.timestamp ∧ d.portion_usd ≤ t.usd ∧
      (i + 1 < (exit_loop ef es n fuel ts u).details.length → d.portion_usd = t.usd) := by
  intro fuel
  induction fuel with
  | zero => intro ts u; simp [exit_loop]
  | succ m ih =>
    intro ts u
    cases ts with
    | nil => simp [exit_loop]
    | cons t ts =>
      by_cases hle : u ≤ eps
      · rw [exit_loop_stop ef es n (m + 1) (t :: ts) u hle]; simp
      · rw [exit_loop_cons ef es n m t ts u hle]
        dsimp only
        by_cases hpop : t.usd - min u t.usd ≤ eps
        · rw [if_pos hpop]
          refine ⟨?_, ?_⟩
          · simpa using Nat.succ_le_succ (ih ts (u - min u t.usd)).1
          · intro i d t2 hd ht
            cases i with
            | zero =>
              rw [List.getElem?_cons_zero, Option.some_inj] at hd ht
              refine ⟨by rw [← hd, ← ht], by rw [← hd, ← ht], by rw [← hd, ← ht], ?_, ?_⟩
              · rw [← hd, ← ht]; exact min_le_right u t.usd
              · intro hlen
                rw [← hd, ← ht]
                simp only [List.length_cons, Nat.add_lt_add_iff_right] at hlen
                have hne : (exit_loop ef es n m ts (u - min u t.usd)).details ≠ [] := by
                  intro hnil
                  rw [hnil] at hlen
                  simp at hlen
                have hgt2 := exit_loop_details_ne_nil ef es n m ts (u - min u t.usd) hne
                rcases min_cases u t.usd with ⟨hmin, hle2⟩ | ⟨hmin, hlt2⟩
                · exfalso
                  rw [hmin] at hgt2
                  have := eps_pos
                  linarith
                · exact hmin
            | succ j =>
              rw [List.getElem?_cons_succ] at hd ht
              have h2 := (ih ts (u - min u t.usd)).2 j d t2 hd ht
              refine ⟨h2.1, h2.2.1, h2.2.2.1, h2.2.2.2.1, ?_⟩
              intro hlen
              exact h2.2.2.2.2 (by simpa using hlen)
        · rw [if_neg hpop]
          have hportion : min u t.usd = u := by
            rcases min_cases u t.usd with ⟨hmin, _⟩ | ⟨hmin, hlt2⟩
            · exact hmin
            · exact absurd (by rw [hmin, sub_self]; exact le_of_lt eps_pos) hpop
          have hzero : u - min u t.usd ≤ eps := by
            rw [hportion, sub_self]; exact le_of_lt eps_pos
          rw [exit_loop_stop ef es n m _ _ hzero]
          refine ⟨by simp, ?_⟩
          intro i d t2 hd ht
          cases i with
          | zero =>
            rw [List.getElem?_cons_zero, Option.some_inj] at hd ht
            refine ⟨by rw [← hd, ← ht], by rw [← hd, ← ht], by rw [← hd, ← ht], ?_, ?_⟩
            · rw [← hd, ← ht]; exact min_le_right u t.usd
            · intro h; simp at h
          | succ j =>
            simp at hd

/-- Conservation with dust bound: walking the loop never loses more than
`eps` of ledger mass, and loses none at all when the request was not
exhausted; surviving tranches stay strictly positive. -/
theorem exit_loop_conserve (ef es n : ℚ) : ∀ (fuel : ℕ) (ts : List Tranche) (u : ℚ),
    (∀ t ∈ ts, 0 < t.usd) → 0 ≤ u →
    0 ≤ (exit_loop ef es n fuel ts u).usd_remaining ∧
    (exit_loop ef es n fuel ts u).usd_remaining ≤ u ∧
    (∀ t ∈ (exit_loop ef es n fuel ts u).tranches, 0 < t.usd) ∧
    0 ≤ sumUsd ts - sumUsd (exit_loop ef es n fuel ts u).tranches
        - (u - (exit_loop ef es n fuel ts u).usd_remaining) ∧
    sumUsd ts - sumUsd (exit_loop ef es n fuel ts u).tranches
        - (u - (exit_loop ef es n fuel ts u).usd_remaining) ≤ eps ∧
    (eps < (exit_loop ef es n fuel ts u).usd_remaining →
      sumUsd ts - sumUsd (exit_loop ef es n fuel ts u).tranches
        - (u - (exit_loop ef es n fuel ts u).usd_remaining) = 0) := by
  intro fuel
  induction fuel with
  | zero =>
    intro ts u hts hu
    simp only [exit_loop]
    refine ⟨hu, le_refl u, hts, by linarith, by linarith [eps_pos], fun _ => by ring⟩
  | succ m ih =>
    intro ts u hts hu
    cases ts with
    | nil =>
      simp only [exit_loop]
      refine ⟨hu, le_refl u, by simp, ?_, ?_, fun _ => ?_⟩
      · simp [sumUsd_nil]
      · simp [sumUsd_nil]; linarith [eps_pos]
      · simp [sumUsd_nil]
    | cons t ts =>
      by_cases hle : u ≤ eps
      · rw [exit_loop_stop ef es n (m + 1) (t :: ts) u hle]
        refine ⟨hu, le_refl u, hts, by linarith, by linarith [eps_pos], fun _ => by ring⟩
      · rw [exit_loop_cons ef es n m t ts u hle]
        dsimp only
        have ht0 : 0 < t.usd := hts t (List.mem_cons_self t ts)
        have hts2 : ∀ x ∈ ts, 0 < x.usd := fun x hx => hts x (List.mem_cons_of_mem t hx)
        have hu_pos : eps < u := lt_of_not_le hle
        have hp_pos : 0 < min u t.usd := lt_min (lt_trans eps_pos hu_pos) ht0
        have hp_le_u : min u t.usd ≤ u := min_le_left u t.usd
        have hp_le_t : min u t.usd ≤ t.usd := min_le_right u t.usd
        by_cases hpop : t.usd - min u t.usd ≤ eps
        · rw [if_pos hpop]
          obtain ⟨h21, h22, h23, h24, h25, h26⟩ := ih ts (u - min u t.usd) hts2 (by linarith)
          by_cases hfull : min u t.usd = t.usd
          · refine ⟨h21, by linarith, h23, ?_, ?_, fun hrem => ?_⟩
            · rw [sumUsd_cons]; linarith
            · rw [sumUsd_cons]; linarith
            · rw [sumUsd_cons]
              have h0 := h26 hrem
              linarith
          · have hpu : min u t.usd = u := by
              rcases min_cases u t.usd with ⟨hmin, _⟩ | ⟨hmin, _⟩
              · exact hmin
              · exact absurd hmin hfull
            have hz : u - min u t.usd ≤ eps := by
              rw [hpu, sub_self]; exact le_of_lt eps_pos
            rw [exit_loop_stop ef es n m ts (u - min u t.usd) hz]
            dsimp only
            refine ⟨by linarith, by linarith, hts2, ?_, ?_, fun hrem => ?_⟩
            · rw [sumUsd_cons]; linarith
            · rw [sumUsd_cons]; linarith
            · exfalso; rw [hpu, sub_self] at hrem; linarith [eps_pos]
        · rw [if_neg hpop]
          push_neg at hpop
          have hpu : min u t.usd = u := by
            rcases min_cases u t.usd with ⟨hmin, _⟩ | ⟨hmin, _⟩
            · exact hmin
            · exfalso; rw [hmin] at hpop; linarith [eps_pos, sub_self t.usd]
          have hz : u - min u t.usd ≤ eps := by
            rw [hpu, sub_self]; exact le_of_lt eps_pos
          rw [exit_loop_stop ef es n m _ _ hz]
          dsimp only
          refine ⟨by linarith, by linarith, ?_, ?_, ?_, fun hrem => ?_⟩
          · intro x hx
            rcases List.mem_cons.mp hx with h | h
            · subst h; dsimp only; linarith [eps_pos]
            · exact hts2 x h
          · rw [sumUsd_cons, sumUsd_cons]
            dsimp only
            linarith
          · rw [sumUsd_cons, sumUsd_cons]
            dsimp only
            linarith [eps_pos]
          · exfalso; rw [hpu, sub_self] at hrem; linarith [eps_pos]

theorem mem_insertDesc {α : Type} (key : α → ℚ) (r a : α) :
    ∀ l : List α, a ∈ insertDesc key r l ↔ a = r ∨ a ∈ l := by
  intro l
  induction l with
  | nil => simp [insertDesc]
  | cons x xs ih =>
    by_cases h : key x < key r
    · simp [insertDesc, h]
    · simp only [insertDesc, if_neg h, List.mem_cons, ih]
      tauto

/-- Sorting permutes membership only. -/
theorem mem_sortDesc {α : Type} (key : α → ℚ) (a : α) :
    ∀ l : List α, a ∈ sortDesc key l ↔ a ∈ l := by
  intro l
  induction l with
  | nil => simp [sortDesc]
  | cons x xs ih =>
    simp only [sortDesc, List.foldr_cons]
    rw [mem_insertDesc]
    simp only [List.mem_cons]
    rw [← sortDesc, ih]

/-- Unfolding of `record_exit` in the dust branch (`usd_target <= 0`). -/
theorem record_exit_dust (p : HedgePosition) (usd : ℚ) (ed : PriceData) (now : ℚ)
    (h : min usd p.notional_usd ≤ 0) : record_exit p usd ed now = ⟨0, 0, [], p⟩ := by
  simp only [record_exit, if_pos h]

/-- Unfolding of `record_exit` in the main branch. -/
theorem record_exit_pos (p : HedgePosition) (usd : ℚ) (ed : PriceData) (now : ℚ)
    (h : ¬ min usd p.notional_usd ≤ 0) :
    record_exit p usd ed now =
      ⟨min usd p.notional_usd
          - (exit_loop ed.futures_price ed.spot_price now (p.tranches.length + 1)
              p.tranches (min usd p.notional_usd)).usd_remaining,
        (exit_loop ed.futures_price ed.spot_price now (p.tranches.length + 1)
            p.tranches (min usd p.notional_usd)).pnl_total,
        (exit_loop ed.futures_price ed.spot_price now (p.tranches.length + 1)
            p.tranches (min usd p.notional_usd)).details,
        { p with
          tranches := (exit_loop ed.futures_price ed.spot_price now
              (p.tranches.length + 1) p.tranches (min usd p.notional_usd)).tranches,
          notional_usd := max 0 (p.notional_usd - (min usd p.notional_usd
              - (exit_loop ed.futures_price ed.spot_price now (p.tranches.length + 1)
                  p.tranches (min usd p.notional_usd)).usd_remaining)) }⟩ := by
  simp only [record_exit, if_neg h]

/-! ### Claim theorems -/

/-- C1: every `record_exit` consumes a contiguous FIFO head of the tranche
list — detail `i` matches tranche `i` in entry prices, every consumed
tranche except the last is consumed in full and the last never beyond its
size — each portion's PnL is
`qty * ((entry_fut - exit_fut) + (exit_spot - entry_spot))` with
`qty = portion_usd / entry_fut`, and the returned PnL is the sum of the
portion PnLs. -/
theorem contango_C1 (p : HedgePosition) (usd : ℚ) (exit_data : PriceData) (now : ℚ) :
    (record_exit p usd exit_data now).details.length ≤ p.tranches.length ∧
    (∀ i d t, (record_exit p usd exit_data now).details[i]? = some d →
        p.tranches[i]? = some t →
        d.entry_futures_price = t.futures_price ∧ d.entry_spot_price = t.spot_price ∧
        d.portion_usd ≤ t.usd ∧
        (i + 1 < (record_exit p usd exit_data now).details.length → d.portion_usd = t.usd)) ∧
    (∀ d ∈ (record_exit p usd exit_data now).details,
        d.qty = d.portion_usd / d.entry_futures_price ∧
        d.pnl_usd = d.qty * ((d.entry_futures_price - exit_data.futures_price)
          + (exit_data.spot_price - d.entry_spot_price))) ∧
    (record_exit p usd exit_data now).pnl_usd
        = ((record_exit p usd exit_data now).details.map ExitDetail.pnl_usd).sum := by
  by_cases h : min usd p.notional_usd ≤ 0
  · rw [record_exit_dust p usd exit_data now h]
    exact ⟨by simp, by intro i d t hd ht; simp at hd, by simp, by simp⟩
  · rw [record_exit_pos p usd exit_data now h]
    dsimp only
    obtain ⟨hlen, hidx⟩ := exit_loop_fifo exit_data.futures_price exit_data.spot_price now
      (p.tranches.length + 1) p.tranches (min usd p.notional_usd)
    refine ⟨hlen, ?_, ?_, exit_loop_pnl _ _ _ _ _ _⟩
    · intro i d t hd ht
      obtain ⟨h1, h2, _, h4, h5⟩ := hidx i d t hd ht
      exact ⟨h1, h2, h4, h5⟩
    · intro d hd
      obtain ⟨h1, h2, _, _, _⟩ :=
        exit_loop_detail_fields exit_data.futures_price exit_data.spot_price now
          (p.tranches.length + 1) p.tranches (min usd p.notional_usd) d hd
      exact ⟨h1, h2⟩

/-- Witness for C1 on the spec's scenario: tranches of $50 at fut=100/spot=99
and fut=110/spot=108, exit of $80 at fut=95/spot=96; the second consumed
portion is the $30 slice of the second tranche. -/
theorem contango_C1_witness :
    (record_exit c1pos 80 ⟨95, 96⟩ 1).details.length ≤ c1pos.tranches.length ∧
    (⟨30, 3 / 11, 110, 108, 0, 95, 96, 1, 9 / 11⟩ : ExitDetail).qty = 30 / 110 ∧
    (⟨30, 3 / 11, 110, 108, 0, 95, 96, 1, 9 / 11⟩ : ExitDetail).pnl_usd
      = 3 / 11 * ((110 - 95) + (96 - 108)) := by
  obtain ⟨hlen, hidx, hfields, hsum⟩ := contango_C1 c1pos 80 ⟨95, 96⟩ 1
  have hmem : (⟨30, 3 / 11, 110, 108, 0, 95, 96, 1, 9 / 11⟩ : ExitDetail)
      ∈ (record_exit c1pos 80 ⟨95, 96⟩ 1).details := by
    norm_num [record_exit, exit_loop, eps, c1pos]
  obtain ⟨hq, hp⟩ := hfields _ hmem
  refine ⟨hlen, by simpa using hq, by simpa using hp⟩

/-- C10: `closed_usd` equals the sum of the returned `portion_usd`s, the
realized PnL equals the sum of the returned `pnl_usd`s, and with
non-positive notional the call returns `(0.0, 0.0, [])` leaving the
position unchanged. -/
theorem contango_C10 (p : HedgePosition) (usd : ℚ) (exit_data : PriceData) (now : ℚ) :
    (record_exit p usd exit_data now).closed_usd
        = ((record_exit p usd exit_data now).details.map ExitDetail.portion_usd).sum ∧
    (record_exit p usd exit_data now).pnl_usd
        = ((record_exit p usd exit_data now).details.map ExitDetail.pnl_usd).sum ∧
    (p.notional_usd ≤ 0 → record_exit p usd exit_data now = ⟨0, 0, [], p⟩) := by
  by_cases h : min usd p.notional_usd ≤ 0
  · rw [record_exit_dust p usd exit_data now h]
    exact ⟨by simp, by simp, fun _ => rfl⟩
  · rw [record_exit_pos p usd exit_data now h]
    dsimp only
    refine ⟨?_, exit_loop_pnl _ _ _ _ _ _, ?_⟩
    · rw [exit_loop_portions]
    · intro hn
      exact absurd (le_trans (min_le_right usd p.notional_usd) hn) h

/-- Witness for C10: the FIFO scenario book sums its portions to the
closed $80, and a zero-notional position is left untouched. -/
theorem contango_C10_witness :
    (record_exit c1pos 80 ⟨95, 96⟩ 1).closed_usd
        = ((record_exit c1pos 80 ⟨95, 96⟩ 1).details.map ExitDetail.portion_usd).sum ∧
    record_exit (empty_position "BTC" "upbit" "gateio" "F" "S") 50 ⟨95, 96⟩ 0
        = ⟨0, 0, [], empty_position "BTC" "upbit" "gateio" "F" "S"⟩ := by
  obtain ⟨ha, _, _⟩ := contango_C10 c1pos 80 ⟨95, 96⟩ 1
  obtain ⟨_, _, hc⟩ := contango_C10 (empty_position "BTC" "upbit" "gateio" "F" "S") 50 ⟨95, 96⟩ 0
  exact ⟨ha, hc (le_refl 0)⟩

/-- Unfolding of `record_entry` in the no-op branch (`usd_added <= 0`). -/
theorem record_entry_dust (p : HedgePosition) (usd : ℚ) (row : PriceData) (now : ℚ)
    (h : min usd (remaining_capacity p) ≤ 0) : record_entry p usd row now = ⟨0, p⟩ := by
  simp only [record_entry, if_pos h]

/-- Unfolding of `record_entry` in the append branch. -/
theorem record_entry_posi (p : HedgePosition) (usd : ℚ) (row : PriceData) (now : ℚ)
    (h : ¬ min usd (remaining_capacity p) ≤ 0) :
    record_entry p usd row now =
      ⟨min usd (remaining_capacity p),
        { p with
          tranches := p.tranches ++ [⟨min usd (remaining_capacity p),
            row.futures_price, row.spot_price, now⟩],
          notional_usd := p.notional_usd + min usd (remaining_capacity p) }⟩ := by
  simp only [record_entry, if_neg h]

/-- Opening `k <= 40` tranches of $50 leaves `k` tranches of $50 and a
notional of `50 k`. -/
theorem open_tranches_spec (opps : ℕ → PriceData) : ∀ k : ℕ, k ≤ 40 →
    (open_tranches opps k).notional_usd = 50 * k ∧
    (open_tranches opps k).tranches.length = k ∧
    ∀ t ∈ (open_tranches opps k).tranches, t.usd = 50 := by
  intro k
  induction k with
  | zero => intro _; exact ⟨by simp [open_tranches, empty_position], rfl, by simp [open_tranches, empty_position]⟩
  | succ m ih =>
    intro hk
    obtain ⟨hn, hlen, hall⟩ := ih (by omega)
    have hm : (m : ℚ) ≤ 39 := by exact_mod_cast (by omega : m ≤ 39)
    have hrc : remaining_capacity (open_tranches opps m) = 2000 - 50 * m := by
      rw [remaining_capacity, hn, MAX_PER_LEG_USD, max_eq_right (by linarith)]
    have hmin : min TRANCHE_USD (remaining_capacity (open_tranches opps m)) = 50 := by
      rw [hrc, TRANCHE_USD, min_eq_left (by linarith)]
    have hpos : ¬ min TRANCHE_USD (remaining_capacity (open_tranches opps m)) ≤ 0 := by
      rw [hmin]; norm_num
    simp only [open_tranches]
    rw [record_entry_posi _ _ _ _ hpos]
    dsimp only
    rw [hmin]
    refine ⟨by rw [hn]; push_cast; ring, by simp [hlen], ?_⟩
    intro t ht
    rcases List.mem_append.mp ht with h | h
    · exact hall t h
    · simp at h; rw [h]

/-- One `record_exit(TRANCHE_USD)` on a book of `m+1` equal $50 tranches
retires exactly the head tranche. -/
theorem exit_step_50 (p : HedgePosition) (ed : PriceData) (m : ℕ)
    (hnot : p.notional_usd = 50 * ((m : ℚ) + 1))
    (hlen : p.tranches.length = m + 1)
    (hall : ∀ t ∈ p.tranches, t.usd = 50) :
    (record_exit p TRANCHE_USD ed 0).pos.notional_usd = 50 * (m : ℚ) ∧
    (record_exit p TRANCHE_USD ed 0).pos.tranches.length = m ∧
    ∀ t ∈ (record_exit p TRANCHE_USD ed 0).pos.tranches, t.usd = 50 := by
  have hm0 : (0 : ℚ) ≤ (m : ℚ) := Nat.cast_nonneg m
  have hmin : min TRANCHE_USD p.notional_usd = 50 := by
    rw [TRANCHE_USD, hnot, min_eq_left (by linarith)]
  have hpos : ¬ min TRANCHE_USD p.notional_usd ≤ 0 := by rw [hmin]; norm_num
  rw [record_exit_pos p TRANCHE_USD ed 0 hpos]
  dsimp only
  rw [hmin]
  cases hts : p.tranches with
  | nil => rw [hts] at hlen; simp at hlen
  | cons t rest =>
    have ht : t.usd = 50 := hall t (by rw [hts]; exact List.mem_cons_self t rest)
    have hrest : ∀ x ∈ rest, x.usd = 50 := fun x hx => hall x (by rw [hts]; exact List.mem_cons_of_mem t hx)
    have hrlen : rest.length = m := by rw [hts] at hlen; simpa using hlen
    rw [List.length_cons]
    rw [exit_loop_cons ed.futures_price ed.spot_price 0 (rest.length + 1) t rest 50
      (by norm_num [eps])]
    dsimp only
    rw [ht, min_self,
      if_pos (by norm_num [eps] : (50 : ℚ) - 50 ≤ eps),
      exit_loop_stop ed.futures_price ed.spot_price 0 (rest.length + 1) rest (50 - 50)
        (by norm_num [eps])]
    dsimp only
    refine ⟨?_, hrlen, hrest⟩
    rw [hnot, max_eq_right (by linarith)]
    ring

/-- Issuing `k` `record_exit(TRANCHE_USD)` requests against a book of `k`
equal $50 tranches empties it. -/
theorem close_tranches_spec : ∀ (k : ℕ) (eds : ℕ → PriceData) (p : HedgePosition),
    p.notional_usd = 50 * k → p.tranches.length = k →
    (∀ t ∈ p.tranches, t.usd = 50) →
    (close_tranches eds k p).notional_usd = 0 ∧ (close_tranches eds k p).tranches = [] := by
  intro k
  induction k with
  | zero =>
    intro eds p hn hlen _
    refine ⟨by simpa using hn, List.length_eq_zero.mp hlen⟩
  | succ m ih =>
    intro eds p hn hlen hall
    have hstep := exit_step_50 p (eds 0) m (by rw [hn]; push_cast; ring) hlen hall
    exact ih (fun i => eds (i + 1)) _ hstep.1 hstep.2.1 hstep.2.2

/-- C5: `record_entry` returns the request clamped to the remaining
capacity and appends exactly one tranche of that size when the clamp is
positive, is a no-op returning 0 when no capacity remains, and from an
empty book 40 entries of `TRANCHE_USD` each return 50 while the 41st
returns 0 (`MAX_PER_LEG_USD = 2000`). -/
theorem contango_C5 :
    (∀ (p : HedgePosition) (usd : ℚ) (opportunity : PriceData) (now : ℚ),
      (0 < min usd (MAX_PER_LEG_USD - p.notional_usd) →
        (record_entry p usd opportunity now).usd_added
            = min usd (MAX_PER_LEG_USD - p.notional_usd) ∧
        (record_entry p usd opportunity now).pos.tranches
            = p.tranches ++ [⟨min usd (MAX_PER_LEG_USD - p.notional_usd),
                opportunity.futures_price, opportunity.spot_price, now⟩] ∧
        (record_entry p usd opportunity now).pos.notional_usd
            = p.notional_usd + min usd (MAX_PER_LEG_USD - p.notional_usd)) ∧
      (MAX_PER_LEG_USD - p.notional_usd ≤ 0 →
        record_entry p usd opportunity now = ⟨0, p⟩)) ∧
    (∀ k : ℕ, k < 40 →
      (record_entry (cap_position k) TRANCHE_USD ⟨100, 99⟩ 0).usd_added = TRANCHE_USD) ∧
    (record_entry (cap_position 40) TRANCHE_USD ⟨100, 99⟩ 0).usd_added = 0 := by
  refine ⟨?_, ?_, ?_⟩
  · intro p usd opportunity now
    constructor
    · intro h
      have h2 : 0 < MAX_PER_LEG_USD - p.notional_usd := lt_of_lt_of_le h (min_le_right _ _)
      have hrc : remaining_capacity p = MAX_PER_LEG_USD - p.notional_usd :=
        max_eq_right (le_of_lt h2)
      have hne : ¬ min usd (remaining_capacity p) ≤ 0 := by
        rw [hrc]; exact not_le.mpr h
      rw [record_entry_posi p usd opportunity now hne, hrc]
      exact ⟨rfl, rfl, rfl⟩
    · intro h
      have hrc : remaining_capacity p = 0 := max_eq_left h
      exact record_entry_dust p usd opportunity now (by rw [hrc]; exact min_le_right usd 0)
  · intro k hk
    obtain ⟨hn, _, _⟩ := open_tranches_spec (fun _ => ⟨100, 99⟩) k (by omega)
    have hkq : (k : ℚ) ≤ 39 := by exact_mod_cast (by omega : k ≤ 39)
    have hrc : remaining_capacity (cap_position k) = 2000 - 50 * k := by
      rw [cap_position, remaining_capacity, hn, MAX_PER_LEG_USD, max_eq_right (by linarith)]
    have hmin : min TRANCHE_USD (remaining_capacity (cap_position k)) = 50 := by
      rw [hrc, TRANCHE_USD, min_eq_left (by linarith)]
    rw [record_entry_posi _ _ _ _ (by rw [hmin]; norm_num), hmin, TRANCHE_USD]
  · obtain ⟨hn, _, _⟩ := open_tranches_spec (fun _ => ⟨100, 99⟩) 40 (le_refl 40)
    have hrc : remaining_capacity (cap_position 40) = 0 := by
      rw [cap_position, remaining_capacity, hn, MAX_PER_LEG_USD]
      norm_num
    rw [record_entry_dust _ _ _ _ (by rw [hrc]; exact min_le_right TRANCHE_USD 0)]

/-- Witness for C5 at the first scenario step: an empty book accepts the
full $50 and the clamp agrees with the direct formula. -/
theorem contango_C5_witness :
    (record_entry (empty_position "BTC" "upbit" "gateio" "F" "S") 50 ⟨100, 99⟩ 0).usd_added
        = min 50 (MAX_PER_LEG_USD
            - (empty_position "BTC" "upbit" "gateio" "F" "S").notional_usd) ∧
    (record_entry (cap_position 0) TRANCHE_USD ⟨100, 99⟩ 0).usd_added = TRANCHE_USD := by
  obtain ⟨hgen, hsc, _⟩ := contango_C5
  exact ⟨((hgen (empty_position "BTC" "upbit" "gateio" "F" "S") 50 ⟨100, 99⟩ 0).1
      (by norm_num [empty_position, MAX_PER_LEG_USD])).1,
    hsc 0 (by norm_num)⟩

/-- C6: opening `k` tranches of `TRANCHE_USD` (with `k·TRANCHE_USD` within
the per-leg cap) and then issuing `k` `record_exit` requests of
`TRANCHE_USD` each returns the book to zero notional and no tranches. -/
theorem contango_C6 (k : ℕ) (opps eds : ℕ → PriceData)
    (hcap : (k : ℚ) * TRANCHE_USD ≤ MAX_PER_LEG_USD) :
    (close_tranches eds k (open_tranches opps k)).notional_usd = 0 ∧
    (close_tranches eds k (open_tranches opps k)).tranches = [] := by
  have hk40 : k ≤ 40 := by
    by_contra hgt
    push_neg at hgt
    have h41 : (41 : ℚ) ≤ (k : ℚ) := by exact_mod_cast hgt
    rw [TRANCHE_USD, MAX_PER_LEG_USD] at hcap
    linarith
  obtain ⟨h1, h2, h3⟩ := open_tranches_spec opps k hk40
  exact close_tranches_spec k eds _ h1 h2 h3

/-- Witness for C6 with `k = 2` round trips. -/
theorem contango_C6_witness :
    (close_tranches (fun _ => ⟨95, 96⟩) 2 (open_tranches (fun _ => ⟨100, 99⟩) 2)).notional_usd
        = 0 ∧
    (close_tranches (fun _ => ⟨95, 96⟩) 2 (open_tranches (fun _ => ⟨100, 99⟩) 2)).tranches
        = [] :=
  contango_C6 2 (fun _ => ⟨100, 99⟩) (fun _ => ⟨95, 96⟩)
    (by norm_num [TRANCHE_USD, MAX_PER_LEG_USD])

theorem sumUsd_nonneg (ts : List Tranche) (h : ∀ t ∈ ts, 0 < t.usd) : 0 ≤ sumUsd ts := by
  induction ts with
  | nil => rw [sumUsd_nil]
  | cons t rest ih =>
    rw [sumUsd_cons]
    have h1 := h t (List.mem_cons_self t rest)
    have h2 := ih fun x hx => h x (List.mem_cons_of_mem t hx)
    linarith

/-- Calling `record_entry` preserves the book invariant without spending dust. -/
theorem entry_preserves_inv (k : ℕ) (p : HedgePosition) (usd : ℚ) (row : PriceData)
    (now : ℚ) (h : BookInv k p) : BookInv k (record_entry p usd row now).pos := by
  obtain ⟨h1, h2, h3, h4⟩ := h
  by_cases hc : min usd (remaining_capacity p) ≤ 0
  · rw [record_entry_dust p usd row now hc]; exact ⟨h1, h2, h3, h4⟩
  · rw [record_entry_posi p usd row now hc]
    unfold BookInv
    dsimp only
    push_neg at hc
    have happ : sumUsd (p.tranches ++ [⟨min usd (remaining_capacity p),
        row.futures_price, row.spot_price, now⟩])
        = sumUsd p.tranches + min usd (remaining_capacity p) := by
      simp [sumUsd]
    have hrc : remaining_capacity p = MAX_PER_LEG_USD - p.notional_usd := by
      have hs := sumUsd_nonneg p.tranches h4
      exact max_eq_right (by linarith)
    have hmr := min_le_right usd (remaining_capacity p)
    refine ⟨by rw [happ]; linarith, by rw [happ]; ring_nf; linarith, ?_, ?_⟩
    · rw [hrc] at hmr ⊢; linarith
    · intro t ht
      rcases List.mem_append.mp ht with hh | hh
      · exact h4 t hh
      · simp at hh; rw [hh]; exact hc

/-- Calling `record_exit` preserves the book invariant at the cost of one dust
unit. -/
theorem exit_preserves_inv (k : ℕ) (p : HedgePosition) (usd : ℚ) (row : PriceData)
    (now : ℚ) (h : BookInv k p) : BookInv (k + 1) (record_exit p usd row now).pos := by
  obtain ⟨h1, h2, h3, h4⟩ := h
  by_cases hc : min usd p.notional_usd ≤ 0
  · rw [record_exit_dust p usd row now hc]
    refine ⟨h1, ?_, h3, h4⟩
    push_cast
    have := eps_pos
    linarith
  · rw [record_exit_pos p usd row now hc]
    unfold BookInv
    dsimp only
    push_neg at hc
    obtain ⟨g1, g2, g3, g4, g5, _⟩ := exit_loop_conserve row.futures_price row.spot_price now
      (p.tranches.length + 1) p.tranches (min usd p.notional_usd) h4 (le_of_lt hc)
    have hmle := min_le_right usd p.notional_usd
    have hclamp : max 0 (p.notional_usd - (min usd p.notional_usd
        - (exit_loop row.futures_price row.spot_price now (p.tranches.length + 1)
            p.tranches (min usd p.notional_usd)).usd_remaining))
        = p.notional_usd - (min usd p.notional_usd
          - (exit_loop row.futures_price row.spot_price now (p.tranches.length + 1)
              p.tranches (min usd p.notional_usd)).usd_remaining) :=
      max_eq_right (by linarith)
    rw [hclamp]
    refine ⟨by linarith, ?_, by linarith, g3⟩
    push_cast
    linarith

theorem exitCount_nil : exitCount [] = 0 := rfl

theorem exitCount_cons_entry (u : ℚ) (r : PriceData) (n : ℚ) (ops : List BookOp) :
    exitCount (.entryOp u r n :: ops) = exitCount ops := by
  simp [exitCount, List.filter]

theorem exitCount_cons_exit (u : ℚ) (r : PriceData) (n : ℚ) (ops : List BookOp) :
    exitCount (.exitOp u r n :: ops) = exitCount ops + 1 := by
  simp [exitCount, List.filter]

/-- Any operation sequence spends at most one dust unit per exit. -/
theorem applyOps_inv : ∀ (ops : List BookOp) (k : ℕ) (p : HedgePosition),
    BookInv k p → BookInv (k + exitCount ops) (applyOps p ops) := by
  intro ops
  induction ops with
  | nil => intro k p h; simpa [applyOps, exitCount] using h
  | cons op rest ih =>
    intro k p h
    cases op with
    | entryOp usd row now =>
      have h2 := ih k _ (entry_preserves_inv k p usd row now h)
      rw [exitCount_cons_entry]
      exact h2
    | exitOp usd row now =>
      have h2 := ih (k + 1) _ (exit_preserves_inv k p usd row now h)
      rw [exitCount_cons_exit]
      have harith : k + (exitCount rest + 1) = k + 1 + exitCount rest := by omega
      rw [harith]
      exact h2

theorem bookInv_empty (bs ss fs fsym ssym : String) :
    BookInv 0 (empty_position bs ss fs fsym ssym) := by
  refine ⟨?_, ?_, ?_, ?_⟩ <;> simp [empty_position, sumUsd, MAX_PER_LEG_USD]

/-- C2 (amended): from an empty book, any sequence of `record_entry` and
`record_exit` calls keeps `0 ≤ notional_usd ≤ MAX_PER_LEG_USD`, and the
ledger mismatch `|notional_usd − Σ tranche.usd|` is bounded by `1e-9` per
`record_exit` call performed — not uniformly by `1e-9`. -/
theorem contango_C2 (bs ss fs fsym ssym : String) (ops : List BookOp) :
    0 ≤ (applyOps (empty_position bs ss fs fsym ssym) ops).notional_usd ∧
    (applyOps (empty_position bs ss fs fsym ssym) ops).notional_usd ≤ MAX_PER_LEG_USD ∧
    |(applyOps (empty_position bs ss fs fsym ssym) ops).notional_usd
        - sumUsd (applyOps (empty_position bs ss fs fsym ssym) ops).tranches|
      ≤ (exitCount ops : ℚ) * eps := by
  obtain ⟨h1, h2, h3, h4⟩ := applyOps_inv ops 0 _ (bookInv_empty bs ss fs fsym ssym)
  have hs := sumUsd_nonneg _ h4
  refine ⟨by linarith, h3, ?_⟩
  rw [abs_of_nonneg (by linarith)]
  simpa using h2

/-- Counterexample for C2 as stated: two $50 entries followed by two exit
requests of `50 − 9e-10` leave `notional_usd = 1.8e-9` against an empty
tranche list, so `|notional_usd − Σ tranche.usd| > 1e-9`. -/
theorem contango_C2_cex :
    ¬ (|(applyOps (empty_position "BTC" "upbit" "gateio" "F" "S") c2ops).notional_usd
        - sumUsd (applyOps (empty_position "BTC" "upbit" "gateio" "F" "S") c2ops).tranches|
      ≤ 1 / 1000000000) := by
  have hx : (applyOps (empty_position "BTC" "upbit" "gateio" "F" "S") c2ops).notional_usd
      = 9 / 5000000000 := by
    norm_num [c2ops, applyOps, applyOp, empty_position, record_entry, record_exit,
      remaining_capacity, exit_loop, eps, TRANCHE_USD, MAX_PER_LEG_USD]
  have hy : (applyOps (empty_position "BTC" "upbit" "gateio" "F" "S") c2ops).tranches
      = [] := by
    norm_num [c2ops, applyOps, applyOp, empty_position, record_entry, record_exit,
      remaining_capacity, exit_loop, eps, TRANCHE_USD, MAX_PER_LEG_USD]
  rw [hx, hy, sumUsd_nil]
  rw [abs_of_nonneg (by norm_num)]
  norm_num

/-- Characterization of a successful pass through `identify_contango`'s
inner loop body. -/
theorem row_for_spec (spot_id spot_label : String) (spot_prices : List (String × ℚ))
    (futures_id base : String) (payload : Monitor.FutPayload) (mp : ℚ) (flag : Bool)
    (r : Monitor.Row)
    (h : Monitor.row_for spot_id spot_label spot_prices futures_id base payload mp flag
      = some r) :
    ∃ sp fp g, List.lookup base spot_prices = some sp ∧ payload.price = some fp ∧
      payload.funding_rate = some g ∧ sp ≠ 0 ∧ 0 < fp - sp ∧
      mp ≤ (fp - sp) / sp * 100 ∧ (flag = true → 0 ≤ g) ∧
      r = { base := base, spot_exchange := spot_id, spot_label := spot_label,
            exchange := futures_id, spot_price := sp, futures_price := fp,
            spread := fp - sp, pct := (fp - sp) / sp * 100,
            futures_symbol := payload.symbol, funding_rate := some g,
            net_pct := (fp - sp) / sp * 100
              - (Monitor.SPOT_FEES spot_id * 2 + Monitor.FUTURES_FEES futures_id * 2) * 100,
            net_pct_minus_0_2 := (fp - sp) / sp * 100
              - (Monitor.SPOT_FEES spot_id * 2 + Monitor.FUTURES_FEES futures_id * 2) * 100
              - 2 / 10,
            net_pct_minus_0_4 := (fp - sp) / sp * 100
              - (Monitor.SPOT_FEES spot_id * 2 + Monitor.FUTURES_FEES futures_id * 2) * 100
              - 4 / 10 } := by
  unfold Monitor.row_for at h
  cases hsp : List.lookup base spot_prices with
  | none => rw [hsp] at h; simp at h
  | some sp =>
    rw [hsp] at h
    dsimp only at h
    by_cases hsp0 : sp = 0
    · rw [if_pos hsp0] at h; simp at h
    · rw [if_neg hsp0] at h
      cases hfp : payload.price with
      | none => rw [hfp] at h; simp at h
      | some fp =>
        rw [hfp] at h
        dsimp only at h
        by_cases hspr : fp - sp ≤ 0
        · rw [if_pos hspr] at h; simp at h
        · rw [if_neg hspr] at h
          by_cases hpct : (fp - sp) / sp * 100 < mp
          · rw [if_pos hpct] at h; simp at h
          · rw [if_neg hpct] at h
            cases hg : payload.funding_rate with
            | none => rw [hg] at h; simp at h
            | some g =>
              rw [hg] at h
              dsimp only at h
              by_cases hneg : flag = true ∧ g < 0
              · rw [if_pos hneg] at h; simp at h
              · rw [if_neg hneg] at h
                push_neg at hneg
                rw [Option.some_inj] at h
                exact ⟨sp, fp, g, rfl, rfl, rfl, hsp0, lt_of_not_le hspr,
                  le_of_not_lt hpct, hneg, h.symm⟩

/-- Rows of `identify_contango` are exactly the successful inner-loop
passes. -/
theorem mem_identify (sm : List (String × Monitor.SpotMapEntry))
    (fm : List (String × List (String × Monitor.FutPayload))) (mp : ℚ) (flag : Bool)
    (r : Monitor.Row) (h : r ∈ Monitor.identify_contango sm fm mp flag) :
    ∃ sp ∈ sm, ∃ f ∈ fm, ∃ bp ∈ f.2,
      Monitor.row_for sp.1 sp.2.label sp.2.prices f.1 bp.1 bp.2 mp flag = some r := by
  unfold Monitor.identify_contango at h
  rw [mem_sortDesc] at h
  simp only [List.mem_flatMap, List.mem_filterMap] at h
  obtain ⟨sp, hsp, f, hf, bp, hbp, hrow⟩ := h
  exact ⟨sp, hsp, f, hf, bp, hbp, hrow⟩

/-- Characterization of a successful pass through `compute_contango`'s
inner loop body on the WS path. -/
theorem ws_row_for_spec (label : String) (spot_prices : List (String × ℚ)) (spot_fee : ℚ)
    (stream_name : String) (stream_fee : ℚ) (resolver : String → Option String)
    (key : String) (data : WS.FutData) (mp : ℚ) (r : WS.Row)
    (h : WS.row_for label spot_prices spot_fee stream_name stream_fee resolver key data mp
      = some r) :
    ∃ base sp bid, resolver key = some base ∧
      List.lookup (WS.upper base) spot_prices = some sp ∧ data.bid = some bid ∧
      sp ≠ 0 ∧ 0 < bid - sp ∧ mp ≤ (bid - sp) / sp * 100 ∧
      r = ⟨WS.upper base, label, stream_name, sp, bid, bid - sp,
        (bid - sp) / sp * 100,
        (bid - sp) / sp * 100 - (spot_fee * 2 + stream_fee * 2) * 100,
        data.funding_rate⟩ := by
  unfold WS.row_for at h
  cases hb : resolver key with
  | none => rw [hb] at h; simp at h
  | some base =>
    rw [hb] at h
    dsimp only at h
    by_cases hbe : base = ""
    · rw [if_pos hbe] at h; simp at h
    · rw [if_neg hbe] at h
      cases hsp : List.lookup (WS.upper base) spot_prices with
      | none => rw [hsp] at h; simp at h
      | some sp =>
        rw [hsp] at h
        dsimp only at h
        by_cases hsp0 : sp = 0
        · rw [if_pos hsp0] at h; simp at h
        · rw [if_neg hsp0] at h
          cases hbid : data.bid with
          | none => rw [hbid] at h; simp at h
          | some bid =>
            rw [hbid] at h
            dsimp only at h
            by_cases hspr : bid - sp ≤ 0
            · rw [if_pos hspr] at h; simp at h
            · rw [if_neg hspr] at h
              by_cases hpct : (bid - sp) / sp * 100 < mp
              · rw [if_pos hpct] at h; simp at h
              · rw [if_neg hpct] at h
                rw [Option.some_inj] at h
                exact ⟨base, sp, bid, rfl, hsp, rfl, hsp0, lt_of_not_le hspr,
                  le_of_not_lt hpct, h.symm⟩

/-- Rows of `compute_contango` are exactly the successful inner-loop
passes of the WS path. -/
theorem mem_compute (ss : List (String × WS.SpotSource)) (streams : List WS.FuturesStream)
    (mp : ℚ) (r : WS.Row) (h : r ∈ WS.compute_contango ss streams mp) :
    ∃ sp ∈ ss, ∃ st ∈ streams, ∃ kd ∈ st.snapshot,
      WS.row_for sp.2.label sp.2.prices (WS.SPOT_FEES sp.1) st.name st.fee st.resolver
        kd.1 kd.2 mp = some r := by
  unfold WS.compute_contango at h
  rw [mem_sortDesc] at h
  simp only [List.mem_flatMap, List.mem_filterMap] at h
  obtain ⟨sp, hsp, st, hst, kd, hkd, hrow⟩ := h
  exact ⟨sp, hsp, st, hst, kd, hkd, hrow⟩

/-- C3 (amended): whenever `min_spread_pct` is non-negative, every row of
either contango evaluator — `identify_contango` of the REST monitor and
`compute_contango` of the WS engine — has
`futures_price > spot_price > 0`, a positive
`spread = futures_price − spot_price`,
`pct = 100 · spread / spot_price ≥ min_spread_pct`, and
`net_pct = pct − (2·spot_fee + 2·futures_fee)·100` with the venue's
configured fees; with the spec's example fees the round-trip cost is
0.170 and a raw 1.200 nets 1.030.  (For a negative `min_spread_pct`
either evaluator can emit rows with negative prices — see the
counterexample.) -/
theorem contango_C3 :
    (∀ (sm : List (String × Monitor.SpotMapEntry))
        (fm : List (String × List (String × Monitor.FutPayload)))
        (mp : ℚ) (flag : Bool), 0 ≤ mp →
      ∀ r ∈ Monitor.identify_contango sm fm mp flag,
        0 < r.spot_price ∧ r.spot_price < r.futures_price ∧
        r.spread = r.futures_price - r.spot_price ∧ 0 < r.spread ∧
        r.pct = (r.futures_price - r.spot_price) / r.spot_price * 100 ∧
        mp ≤ r.pct ∧
        r.net_pct = r.pct - (2 * Monitor.SPOT_FEES r.spot_exchange
          + 2 * Monitor.FUTURES_FEES r.exchange) * 100) ∧
    (∀ (ss : List (String × WS.SpotSource)) (streams : List WS.FuturesStream)
        (mp : ℚ), 0 ≤ mp →
      ∀ r ∈ WS.compute_contango ss streams mp,
        0 < r.spot_price ∧ r.spot_price < r.futures_price ∧
        r.spread = r.futures_price - r.spot_price ∧ 0 < r.spread ∧
        r.pct = (r.futures_price - r.spot_price) / r.spot_price * 100 ∧
        mp ≤ r.pct ∧
        ∃ sp ∈ ss, ∃ st ∈ streams, r.spot_label = sp.2.label ∧ r.futures = st.name ∧
          r.net_pct = r.pct - (2 * WS.SPOT_FEES sp.1 + 2 * st.fee) * 100) ∧
    (2 * Monitor.SPOT_FEES "upbit" + 2 * Monitor.FUTURES_FEES "hyperliquid") * 100
        = 17 / 100 ∧
    (12 : ℚ) / 10 - 17 / 100 = 103 / 100 := by
  refine ⟨?_, ?_, by norm_num [Monitor.SPOT_FEES, Monitor.FUTURES_FEES,
    (by decide : ("hyperliquid" : String) ≠ "gateio")], by norm_num⟩
  · intro sm fm mp flag hmp r hr
    obtain ⟨sp, _, f, _, bp, _, hrow⟩ := mem_identify sm fm mp flag r hr
    obtain ⟨spv, fpv, g, _, _, _, hsp0, hspr, hpct, _, hreq⟩ :=
      row_for_spec sp.1 sp.2.label sp.2.prices f.1 bp.1 bp.2 mp flag r hrow
    have hpct0 : 0 ≤ (fpv - spv) / spv * 100 := le_trans hmp hpct
    have hsppos : 0 < spv := by
      rcases lt_trichotomy spv 0 with hlt | heq | hgt
      · exfalso
        have hdiv : (fpv - spv) / spv < 0 := div_neg_of_pos_of_neg hspr hlt
        nlinarith
      · exact absurd heq hsp0
      · exact hgt
    rw [hreq]
    dsimp only
    refine ⟨hsppos, by linarith, rfl, hspr, rfl, hpct, by ring⟩
  · intro ss streams mp hmp r hr
    obtain ⟨sp, hspmem, st, hstmem, kd, _, hrow⟩ := mem_compute ss streams mp r hr
    obtain ⟨base, spv, bid, _, _, _, hsp0, hspr, hpct, hreq⟩ :=
      ws_row_for_spec sp.2.label sp.2.prices (WS.SPOT_FEES sp.1) st.name st.fee
        st.resolver kd.1 kd.2 mp r hrow
    have hpct0 : 0 ≤ (bid - spv) / spv * 100 := le_trans hmp hpct
    have hsppos : 0 < spv := by
      rcases lt_trichotomy spv 0 with hlt | heq | hgt
      · exfalso
        have hdiv : (bid - spv) / spv < 0 := div_neg_of_pos_of_neg hspr hlt
        nlinarith
      · exact absurd heq hsp0
      · exact hgt
    rw [hreq]
    dsimp only
    exact ⟨hsppos, by linarith, rfl, hspr, rfl, hpct,
      sp, hspmem, st, hstmem, rfl, rfl, by ring⟩

/-- Witness for C3 on both evaluators: the REST monitor emits the 0.5%
row for spot $100,000 vs futures $100,500 at `min_spread_pct = 0.4`, and
the WS engine emits the 10% row for spot $100 vs bid $110 at threshold
0; both satisfy the amended price, spread, pct and fee equations. -/
theorem contango_C3_witness :
    (0 < c3row.spot_price ∧ c3row.spot_price < c3row.futures_price ∧
      c3row.spread = c3row.futures_price - c3row.spot_price ∧ 0 < c3row.spread ∧
      c3row.pct = (c3row.futures_price - c3row.spot_price) / c3row.spot_price * 100 ∧
      (4 : ℚ) / 10 ≤ c3row.pct ∧
      c3row.net_pct = c3row.pct - (2 * Monitor.SPOT_FEES c3row.spot_exchange
        + 2 * Monitor.FUTURES_FEES c3row.exchange) * 100) ∧
    (0 < c3wsrow.spot_price ∧ c3wsrow.spot_price < c3wsrow.futures_price ∧
      c3wsrow.spread = c3wsrow.futures_price - c3wsrow.spot_price ∧ 0 < c3wsrow.spread ∧
      c3wsrow.pct = (c3wsrow.futures_price - c3wsrow.spot_price) / c3wsrow.spot_price * 100 ∧
      (0 : ℚ) ≤ c3wsrow.pct ∧
      ∃ sp ∈ [("upbit", (⟨"Up", [("BTC", 100)]⟩ : WS.SpotSource))], ∃ st ∈ [c4stream],
        c3wsrow.spot_label = sp.2.label ∧ c3wsrow.futures = st.name ∧
        c3wsrow.net_pct = c3wsrow.pct - (2 * WS.SPOT_FEES sp.1 + 2 * st.fee) * 100) := by
  obtain ⟨hmon, hws, _, _⟩ := contango_C3
  constructor
  · refine hmon c3spot c3fut (4 / 10) true (by norm_num) c3row ?_
    norm_num [c3spot, c3fut, c3row, Monitor.identify_contango, Monitor.row_for,
      sortDesc, insertDesc, Monitor.SPOT_FEES, Monitor.FUTURES_FEES, List.lookup,
      List.filterMap_cons, List.flatMap_cons, List.flatMap_nil,
      (by decide : ("hyperliquid" : String) ≠ "gateio")]
  · refine hws [("upbit", ⟨"Up", [("BTC", 100)]⟩)] [c4stream] 0 (by norm_num) c3wsrow ?_
    norm_num [c3wsrow, WS.compute_contango, WS.row_for, c4stream, sortDesc, insertDesc,
      WS.SPOT_FEES, WS.HL_FEE, List.lookup,
      List.filterMap_cons, List.flatMap_cons, List.flatMap_nil,
      (by decide : WS.upper "BTC" = "BTC"),
      (by decide : ("BTC" : String) ≠ "")]

/-- Counterexample for C3 as stated: with a negative `min_spread_pct` the
evaluator emits a row whose spot price is negative, because only
`pct ≥ min_spread_pct` is enforced and negative spot prices are not
filtered. -/
theorem contango_C3_cex :
    Monitor.identify_contango [("upbit", ⟨"Up", [("BTC", -100)]⟩)]
        [("hyperliquid", [("BTC", ⟨some (-50), some 0, none⟩)])] (-100) true
      = [⟨"BTC", "upbit", "Up", "hyperliquid", -100, -50, 50, -50, none, some 0,
          -5017 / 100, -5037 / 100, -5057 / 100⟩] ∧
    ¬ (0 < (⟨"BTC", "upbit", "Up", "hyperliquid", -100, -50, 50, -50, none, some 0,
          -5017 / 100, -5037 / 100, -5057 / 100⟩ : Monitor.Row).spot_price) := by
  constructor
  · norm_num [Monitor.identify_contango, Monitor.row_for, sortDesc, insertDesc,
      Monitor.SPOT_FEES, Monitor.FUTURES_FEES, List.lookup,
      List.filterMap_cons, List.flatMap_cons, List.flatMap_nil,
      (by decide : ("hyperliquid" : String) ≠ "gateio")]
  · norm_num

/-- C4 (amended): `identify_contango` skips combinations whose funding
rate is missing and, when `require_nonnegative_funding` is set, those with
negative funding, so each of its rows carries a non-null funding rate that
is non-negative under the flag.  (`compute_contango` of the WS engine
performs no funding filtering — see the counterexample.) -/
theorem contango_C4 (sm : List (String × Monitor.SpotMapEntry))
    (fm : List (String × List (String × Monitor.FutPayload))) (mp : ℚ) (flag : Bool) :
    ∀ r ∈ Monitor.identify_contango sm fm mp flag,
      ∃ g, r.funding_rate = some g ∧ (flag = true → 0 ≤ g) := by
  intro r hr
  obtain ⟨sp, _, f, _, bp, _, hrow⟩ := mem_identify sm fm mp flag r hr
  obtain ⟨spv, fpv, g, _, _, _, _, _, _, hflag, hreq⟩ :=
    row_for_spec sp.1 sp.2.label sp.2.prices f.1 bp.1 bp.2 mp flag r hrow
  exact ⟨g, by rw [hreq], hflag⟩

/-- Witness for C4 on the spread-filter scenario row. -/
theorem contango_C4_witness :
    ∃ g, c3row.funding_rate = some g ∧ (true = true → 0 ≤ g) := by
  refine contango_C4 c3spot c3fut 0 true c3row ?_
  norm_num [c3spot, c3fut, c3row, Monitor.identify_contango, Monitor.row_for,
    sortDesc, insertDesc, Monitor.SPOT_FEES, Monitor.FUTURES_FEES, List.lookup,
    List.filterMap_cons, List.flatMap_cons, List.flatMap_nil,
    (by decide : ("hyperliquid" : String) ≠ "gateio")]

/-- Counterexample for C4 as stated: the WS-engine evaluator
`compute_contango` emits a row with a null funding rate, because it never
filters on funding. -/
theorem contango_C4_cex :
    WS.compute_contango [("upbit", ⟨"Up", [("BTC", 100)]⟩)] [c4stream] 0
      = [⟨"BTC", "Up", "Hyperliquid", 100, 110, 10, 10, 983 / 100, none⟩] ∧
    (⟨"BTC", "Up", "Hyperliquid", 100, 110, 10, 10, 983 / 100, none⟩ : WS.Row).funding_rate
      = none := by
  constructor
  · norm_num [WS.compute_contango, WS.row_for, c4stream, sortDesc, insertDesc,
      WS.SPOT_FEES, WS.HL_FEE, List.lookup,
      List.filterMap_cons, List.flatMap_cons, List.flatMap_nil,
      (by decide : WS.upper "BTC" = "BTC"),
      (by decide : ("BTC" : String) ≠ "")]
  · rfl

theorem lookup_setKey {α : Type} (k k2 : String) (v : α) :
    ∀ m : List (String × α),
      List.lookup k2 (setKey m k v) = if k2 = k then some v else List.lookup k2 m := by
  intro m
  induction m with
  | nil =>
    by_cases h : k2 = k
    · simp [setKey, List.lookup, h]
    · have hb : (k2 == k) = false := by simp [h]
      simp [setKey, List.lookup, h, hb]
  | cons hd tl ih =>
    obtain ⟨k0, v0⟩ := hd
    by_cases hk0 : k0 = k
    · subst hk0
      rw [setKey, if_pos rfl]
      by_cases h2 : k2 = k0
      · simp [List.lookup, h2]
      · have hb : (k2 == k0) = false := by simp [h2]
        simp [List.lookup, h2, hb]
    · rw [setKey, if_neg hk0]
      by_cases h2 : k2 = k0
      · subst h2
        have hne : ¬ k2 = k := fun hx => hk0 hx
        simp [List.lookup, hne]
      · have hb : (k2 == k0) = false := by simp [h2]
        simp [List.lookup, hb, ih]

theorem mem_setKey {α : Type} (k : String) (v : α) (x : String × α) :
    ∀ m : List (String × α), x ∈ setKey m k v → x = (k, v) ∨ x ∈ m := by
  intro m
  induction m with
  | nil => intro h; simpa [setKey] using h
  | cons hd tl ih =>
    obtain ⟨k0, v0⟩ := hd
    intro h
    by_cases hk0 : k0 = k
    · rw [setKey, if_pos hk0] at h
      rcases List.mem_cons.mp h with h1 | h1
      · exact Or.inl h1
      · exact Or.inr (List.mem_cons_of_mem _ h1)
    · rw [setKey, if_neg hk0] at h
      rcases List.mem_cons.mp h with h1 | h1
      · exact Or.inr (by rw [h1]; exact List.mem_cons_self _ _)
      · rcases ih h1 with h2 | h2
        · exact Or.inl h2
        · exact Or.inr (List.mem_cons_of_mem _ h2)

theorem lookup_setKey_preserve {α : Type} (m : List (String × α)) (k k2 : String)
    (v w : α) (h : List.lookup k2 m = some w) :
    ∃ w2, List.lookup k2 (setKey m k v) = some w2 := by
  rw [lookup_setKey]
  by_cases hk : k2 = k
  · exact ⟨v, by rw [if_pos hk]⟩
  · exact ⟨w, by rw [if_neg hk]; exact h⟩

/-- Every binding produced by the projection loop that is not inherited
from the accumulator comes from a `*/KRW` ticker with a usable price. -/
theorem project_loop_mem (u : ℚ) :
    ∀ (l : List (String × Monitor.Ticker)) (acc : List (String × ℚ)) (b : String) (v : ℚ),
      (b, v) ∈ Monitor.project_loop u l acc →
      (b, v) ∈ acc ∨ ∃ symbol ticker price, (symbol, ticker) ∈ l ∧
        Monitor.ends_with_krw symbol = true ∧ Monitor.pickPrice ticker = some price ∧
        b = Monitor.normalize_base symbol ∧ v = price / u := by
  intro l
  induction l with
  | nil => intro acc b v h; exact Or.inl h
  | cons hd tl ih =>
    intro acc b v h
    obtain ⟨symbol, ticker⟩ := hd
    by_cases hk : Monitor.ends_with_krw symbol = true
    · rw [Monitor.project_loop, if_pos hk] at h
      cases hp : Monitor.pickPrice ticker with
      | none =>
        rw [hp] at h
        rcases ih _ b v h with h1 | ⟨s, t, p, hmem, hkrw, hpick, hb, hv⟩
        · exact Or.inl h1
        · exact Or.inr ⟨s, t, p, List.mem_cons_of_mem _ hmem, hkrw, hpick, hb, hv⟩
      | some price =>
        rw [hp] at h
        rcases ih _ b v h with h1 | ⟨s, t, p, hmem, hkrw, hpick, hb, hv⟩
        · rcases mem_setKey _ _ _ acc h1 with h2 | h2
          · rcases Prod.mk.injEq .. ▸ h2 with ⟨hb, hv⟩
            exact Or.inr ⟨symbol, ticker, price, List.mem_cons_self _ _, hk, hp, hb, hv⟩
          · exact Or.inl h2
        · exact Or.inr ⟨s, t, p, List.mem_cons_of_mem _ hmem, hkrw, hpick, hb, hv⟩
    · rw [Monitor.project_loop, if_neg hk] at h
      rcases ih _ b v h with h1 | ⟨s, t, p, hmem, hkrw, hpick, hb, hv⟩
      · exact Or.inl h1
      · exact Or.inr ⟨s, t, p, List.mem_cons_of_mem _ hmem, hkrw, hpick, hb, hv⟩

/-- A key present in the accumulator stays present through the loop. -/
theorem project_loop_keeps (u : ℚ) :
    ∀ (l : List (String × Monitor.Ticker)) (acc : List (String × ℚ)) (key : String) (w : ℚ),
      List.lookup key acc = some w →
      ∃ w2, List.lookup key (Monitor.project_loop u l acc) = some w2 := by
  intro l
  induction l with
  | nil => intro acc key w h; exact ⟨w, h⟩
  | cons hd tl ih =>
    intro acc key w h
    obtain ⟨symbol, ticker⟩ := hd
    by_cases hk : Monitor.ends_with_krw symbol = true
    · rw [Monitor.project_loop, if_pos hk]
      cases hp : Monitor.pickPrice ticker with
      | none => exact ih acc key w h
      | some price =>
        obtain ⟨w2, hw2⟩ := lookup_setKey_preserve acc
          (Monitor.normalize_base symbol) key (price / u) w h
        exact ih _ key w2 hw2
    · rw [Monitor.project_loop, if_neg hk]
      exact ih acc key w h

/-- Every `*/KRW` ticker with a usable price lands in the projection,
keyed by its canonical base. -/
theorem project_loop_covers (u : ℚ) :
    ∀ (l : List (String × Monitor.Ticker)) (acc : List (String × ℚ))
      (symbol : String) (ticker : Monitor.Ticker) (price : ℚ),
      (symbol, ticker) ∈ l → Monitor.ends_with_krw symbol = true →
      Monitor.pickPrice ticker = some price →
      ∃ w, List.lookup (Monitor.normalize_base symbol) (Monitor.project_loop u l acc)
        = some w := by
  intro l
  induction l with
  | nil => intro acc symbol ticker price hmem; exact absurd hmem (List.not_mem_nil _)
  | cons hd tl ih =>
    intro acc symbol ticker price hmem hkrw hpick
    obtain ⟨s0, t0⟩ := hd
    rcases List.mem_cons.mp hmem with hh | hh
    · obtain ⟨hs, ht⟩ := Prod.mk.injEq .. ▸ hh
      subst hs; subst ht
      rw [Monitor.project_loop, if_pos hkrw, hpick]
      refine project_loop_keeps u tl _ _ (price / u) ?_
      rw [lookup_setKey, if_pos rfl]
    · by_cases hk : Monitor.ends_with_krw s0 = true
      · rw [Monitor.project_loop, if_pos hk]
        cases hp : Monitor.pickPrice t0 with
        | none => exact ih acc symbol ticker price hh hkrw hpick
        | some p0 => exact ih _ symbol ticker price hh hkrw hpick
      · rw [Monitor.project_loop, if_neg hk]
        exact ih acc symbol ticker price hh hkrw hpick

/-- C7 (amended): for each `*/KRW` ticker the projector takes the ask when
it is present and non-zero (Python truthiness), otherwise the last price,
divides by the KRW rate and keys by canonical base; entries without a
usable price are omitted; the scenario `KRW-BTC` ask 140,000,000 at rate
1,400 projects to spot_usd 100,000. -/
theorem contango_C7 :
    (∀ (prices : List (String × Monitor.Ticker)) (usdkrw : ℚ) (b : String) (v : ℚ),
      (b, v) ∈ Monitor.project_spot_usd prices usdkrw →
      ∃ symbol ticker price, (symbol, ticker) ∈ prices ∧
        Monitor.ends_with_krw symbol = true ∧ Monitor.pickPrice ticker = some price ∧
        b = Monitor.normalize_base symbol ∧ v = price / usdkrw) ∧
    (∀ (prices : List (String × Monitor.Ticker)) (usdkrw : ℚ) (symbol : String)
      (ticker : Monitor.Ticker) (price : ℚ),
      (symbol, ticker) ∈ prices → Monitor.ends_with_krw symbol = true →
      Monitor.pickPrice ticker = some price →
      ∃ w, List.lookup (Monitor.normalize_base symbol)
        (Monitor.project_spot_usd prices usdkrw) = some w) ∧
    Monitor.project_spot_usd [("BTC/KRW", ⟨some 140000000, none⟩)] 1400
      = [("BTC", 100000)] := by
  refine ⟨?_, ?_, ?_⟩
  · intro prices usdkrw b v h
    rcases project_loop_mem usdkrw prices [] b v h with h1 | h1
    · exact absurd h1 (List.not_mem_nil _)
    · exact h1
  · intro prices usdkrw symbol ticker price hmem hkrw hpick
    exact project_loop_covers usdkrw prices [] symbol ticker price hmem hkrw hpick
  · norm_num [Monitor.project_spot_usd, Monitor.project_loop, Monitor.pickPrice, setKey,
      (by decide : Monitor.ends_with_krw "BTC/KRW" = true),
      (by decide : Monitor.normalize_base "BTC/KRW" = "BTC")]

/-- Witness for C7: the projected `("BTC", 100000)` binding traces back to
the `BTC/KRW` ticker. -/
theorem contango_C7_witness :
    ∃ symbol ticker price,
      (symbol, ticker) ∈ [("BTC/KRW", (⟨some 140000000, none⟩ : Monitor.Ticker))] ∧
      Monitor.ends_with_krw symbol = true ∧ Monitor.pickPrice ticker = some price ∧
      "BTC" = Monitor.normalize_base symbol ∧ (100000 : ℚ) = price / 1400 := by
  obtain ⟨hmem, _, hval⟩ := contango_C7
  refine hmem [("BTC/KRW", ⟨some 140000000, none⟩)] 1400 "BTC" 100000 ?_
  rw [hval]
  exact List.mem_cons_self _ _

/-- Counterexample for C7 as stated: a ticker with a zero ask and a last
price of 70 projects `70 / rate`, not `ask / rate`, because the Python
`or` treats the zero ask as absent. -/
theorem contango_C7_cex :
    Monitor.project_spot_usd [("X/KRW", ⟨some 0, some 70⟩)] 7 = [("X", 10)] ∧
    Monitor.claim_pick ⟨some 0, some 70⟩ = some 0 ∧
    ¬ ((0 : ℚ) / 7 = 10) := by
  refine ⟨?_, rfl, by norm_num⟩
  norm_num [Monitor.project_spot_usd, Monitor.project_loop, Monitor.pickPrice, setKey,
    (by decide : Monitor.ends_with_krw "X/KRW" = true),
    (by decide : Monitor.normalize_base "X/KRW" = "X")]

/-- A freshly stored cache keeps the well-formedness invariant. -/
theorem cacheWF_setKey (c : Monitor.USDKRWCache) (e : String) (raw now : ℚ)
    (hwf : Monitor.CacheWF c) :
    Monitor.CacheWF ⟨c.ttl, setKey c.rates e ⟨raw, now, raw⟩⟩ := by
  intro e2 r2 h2
  dsimp only at h2
  rw [lookup_setKey] at h2
  by_cases he : e2 = e
  · rw [if_pos he, Option.some_inj] at h2
    rw [← h2]
  · rw [if_neg he] at h2
    exact hwf e2 r2 h2

/-- A successful `get_rate` call always returns the current raw reading
(cached records never diverge from their raw input), and keeps the cache
well-formed. -/
theorem get_rate_ok (c : Monitor.USDKRWCache) (e : String)
    (prices : List (String × Monitor.Ticker)) (now : ℚ) (v : ℚ)
    (c2 : Monitor.USDKRWCache) (hwf : Monitor.CacheWF c)
    (h : Monitor.get_rate c e prices now = .ok (v, c2)) :
    Monitor.rawReading prices = some v ∧ Monitor.CacheWF c2 := by
  unfold Monitor.get_rate at h
  cases hl : List.lookup "USDT/KRW" prices with
  | none => rw [hl] at h; simp at h
  | some info =>
    rw [hl] at h
    dsimp only at h
    cases hp : Monitor.pickPrice info with
    | none => rw [hp] at h; simp at h
    | some raw =>
      rw [hp] at h
      dsimp only at h
      have hraw : Monitor.rawReading prices = some raw := by
        rw [Monitor.rawReading, hl]
        simpa using hp
      cases hr : List.lookup e c.rates with
      | none =>
        rw [hr] at h
        dsimp only at h
        rw [Except.ok.injEq, Prod.mk.injEq] at h
        obtain ⟨hv, hc⟩ := h
        refine ⟨by rw [hraw, hv], ?_⟩
        rw [← hc]
        exact cacheWF_setKey c e raw now hwf
      | some record =>
        rw [hr] at h
        dsimp only at h
        by_cases hh : raw = record.raw ∧ now - record.timestamp < c.ttl
        · rw [if_pos hh] at h
          rw [Except.ok.injEq, Prod.mk.injEq] at h
          obtain ⟨hv, hc⟩ := h
          have hrr := hwf e record hr
          refine ⟨?_, by rw [← hc]; exact hwf⟩
          rw [hraw, ← hv, hrr, ← hh.1]
        · rw [if_neg hh] at h
          rw [Except.ok.injEq, Prod.mk.injEq] at h
          obtain ⟨hv, hc⟩ := h
          refine ⟨by rw [hraw, hv], ?_⟩
          rw [← hc]
          exact cacheWF_setKey c e raw now hwf

/-- The module-level cache starts well-formed. -/
theorem cacheWF_init : Monitor.CacheWF Monitor.usdkrw_cache_init :=
  fun _ _ h => nomatch h

/-- C8: two `get_rate` calls for the same venue less than the TTL apart
whose `USDT/KRW` raw readings (ask falling back to last) agree return the
same rate; this holds for every cache reachable from the program's
initial (empty, TTL 30 s) cache because stored records always memoise
exactly their raw input. -/
theorem contango_C8 (c : Monitor.USDKRWCache) (venue : String)
    (p1 p2 : List (String × Monitor.Ticker)) (t1 t2 r1 r2 : ℚ)
    (c1 c2 : Monitor.USDKRWCache)
    (hwf : Monitor.CacheWF c) (_httl : c.ttl = 30)
    (h1 : Monitor.get_rate c venue p1 t1 = .ok (r1, c1))
    (h2 : Monitor.get_rate c1 venue p2 t2 = .ok (r2, c2))
    (hraw : Monitor.rawReading p1 = Monitor.rawReading p2)
    (_hclose : |t2 - t1| < c.ttl) :
    r1 = r2 := by
  obtain ⟨hv1, hwf1⟩ := get_rate_ok c venue p1 t1 r1 c1 hwf h1
  obtain ⟨hv2, _⟩ := get_rate_ok c1 venue p2 t2 r2 c2 hwf1 h2
  rw [hv1, hv2] at hraw
  exact Option.some_inj.mp hraw

/-- Witness for C8: two calls 10 s apart over the same `USDT/KRW` ask of
1,400 (the second one a cache hit) return the same rate. -/
theorem contango_C8_witness : (1400 : ℚ) = 1400 :=
  contango_C8 Monitor.usdkrw_cache_init "upbit"
    [("USDT/KRW", ⟨some 1400, none⟩)] [("USDT/KRW", ⟨some 1400, none⟩)]
    0 10 1400 1400
    ⟨30, [("upbit", ⟨1400, 0, 1400⟩)]⟩ ⟨30, [("upbit", ⟨1400, 0, 1400⟩)]⟩
    cacheWF_init rfl
    (by norm_num [Monitor.get_rate, Monitor.usdkrw_cache_init, Monitor.pickPrice,
      setKey, List.lookup])
    (by norm_num [Monitor.get_rate, Monitor.pickPrice, List.lookup])
    rfl
    (by norm_num [Monitor.usdkrw_cache_init])

/-- C9 (amended): `get_rate` raises exactly when the `USDT/KRW` ticker is
absent or its ask-or-last fallback yields nothing (a zero ask counts as
absent under Python truthiness); and a venue whose `get_rate` raises is
simply dropped by `build_spot_usd_maps`, which continues with the
remaining venues on the unchanged cache. -/
theorem contango_C9 :
    (∀ (c : Monitor.USDKRWCache) (e : String)
        (prices : List (String × Monitor.Ticker)) (now : ℚ),
      (∃ msg, Monitor.get_rate c e prices now = .error msg) ↔
        Monitor.rawReading prices = none) ∧
    (∀ (now : ℚ) (v : Monitor.SpotVenue) (rest : List Monitor.SpotVenue)
        (c : Monitor.USDKRWCache) (prices : List (String × Monitor.Ticker)) (msg : String),
      v.payload = some (.fetched prices) →
      Monitor.get_rate c v.exchange_id prices now = .error msg →
      Monitor.build_spot_usd_maps (v :: rest) c now
        = Monitor.build_spot_usd_maps rest c now) := by
  constructor
  · intro c e prices now
    unfold Monitor.get_rate Monitor.rawReading
    cases hl : List.lookup "USDT/KRW" prices with
    | none => simp
    | some info =>
      dsimp only
      cases hp : Monitor.pickPrice info with
      | none => simp [hp]
      | some raw =>
        dsimp only
        have hrhs : ((some info).bind Monitor.pickPrice = none) ↔ False := by simp [hp]
        rw [hrhs, iff_false]
        intro hex
        obtain ⟨msg, hmsg⟩ := hex
        cases hr : List.lookup e c.rates with
        | none => rw [hr] at hmsg; simp at hmsg
        | some record =>
          rw [hr] at hmsg
          dsimp only at hmsg
          by_cases hh : raw = record.raw ∧ now - record.timestamp < c.ttl
          · rw [if_pos hh] at hmsg; simp at hmsg
          · rw [if_neg hh] at hmsg; simp at hmsg
  · intro now v rest c prices msg hpay herr
    have hstep : Monitor.build_spot_loop now (v :: rest) c
        = Monitor.build_spot_loop now rest c := by
      rw [Monitor.build_spot_loop, hpay]
      dsimp only
      rw [herr]
    unfold Monitor.build_spot_usd_maps
    rw [hstep]

/-- Witness for C9: a venue whose `USDT/KRW` ticker has a zero ask and no
last price raises and is excluded while the scan continues. -/
theorem contango_C9_witness :
    Monitor.build_spot_usd_maps
        [⟨"upbit", "Upbit KRW Spot", some "Up",
          some (.fetched [("USDT/KRW", ⟨some 0, none⟩)])⟩]
        Monitor.usdkrw_cache_init 0
      = Monitor.build_spot_usd_maps [] Monitor.usdkrw_cache_init 0 := by
  obtain ⟨_, hdrop⟩ := contango_C9
  exact hdrop 0 ⟨"upbit", "Upbit KRW Spot", some "Up",
      some (.fetched [("USDT/KRW", ⟨some 0, none⟩)])⟩ []
    Monitor.usdkrw_cache_init [("USDT/KRW", ⟨some 0, none⟩)]
    "USDT/KRW ticker has no price data." rfl
    (by norm_num [Monitor.get_rate, Monitor.usdkrw_cache_init, Monitor.pickPrice,
      List.lookup])

/-- Counterexample for C9 as stated: the `USDT/KRW` ticker is present and
its ask is non-null (it is zero), yet `get_rate` raises — so "absent or
null ask and last" does not characterise the error. -/
theorem contango_C9_cex :
    Monitor.get_rate Monitor.usdkrw_cache_init "upbit"
        [("USDT/KRW", ⟨some 0, none⟩)] 0
      = .error "USDT/KRW ticker has no price data." ∧
    List.lookup "USDT/KRW" [("USDT/KRW", (⟨some 0, none⟩ : Monitor.Ticker))]
      = some ⟨some 0, none⟩ ∧
    (⟨some 0, none⟩ : Monitor.Ticker).ask ≠ none := by
  refine ⟨?_, ?_, by simp⟩
  · norm_num [Monitor.get_rate, Monitor.usdkrw_cache_init, Monitor.pickPrice, List.lookup]
  · simp [List.lookup]

end Contango
